import Mathlib

/-!
Verification of the buddy allocator in `src/buddy.rs`.

The allocator tracks free/used blocks of a GPU buffer in a flat array-backed
binary tree of `i8` values (`alloc_tree`).  We embed the tracking state and the
operations `new`, `alloc`, `free`, `write` (its offset computation) and
`check_is_same` shallowly: `Box<[i8]>` becomes `Array Int` (no `i8` arithmetic
in the code can leave `[-128, 127]` on states reachable with a 64-bit `usize`
capacity, which we prove below in the form of the `-128 ≤ v ≤ max_order`
invariant), `usize` becomes `Nat`, and the fallible constructor and allocation
return `Option`.  The GPU buffer itself holds no allocator state; `write` is
embedded as the byte-offset computation it passes to `Queue::write_buffer`.
-/

/-- Rust `u32::ilog2`/`usize::ilog2` (floor of log base 2), fuel-based so that
it reduces by kernel computation.  Rust panics on `0`; the code under
verification never calls it on `0`. -/
def ilog2Aux : Nat → Nat → Nat
  | 0, _ => 0
  | fuel + 1, n => if n ≤ 1 then 0 else ilog2Aux fuel (n / 2) + 1

/-- `ilog2 n` is `floor (log2 n)` for `n ≥ 1`. -/
def ilog2 (n : Nat) : Nat := ilog2Aux n n

theorem ilog2Aux_congr : ∀ f1 f2 n, n ≤ f1 → n ≤ f2 → ilog2Aux f1 n = ilog2Aux f2 n := by
  intro f1
  induction f1 with
  | zero =>
    intro f2 n h1 _
    interval_cases n
    cases f2 <;> simp [ilog2Aux]
  | succ f1 ih =>
    intro f2 n h1 h2
    by_cases hn : n ≤ 1
    · cases f2 with
      | zero => interval_cases n <;> simp [ilog2Aux]
      | succ f2 => simp [ilog2Aux, hn]
    · cases f2 with
      | zero => omega
      | succ f2 =>
        simp only [ilog2Aux, hn, if_false]
        rw [ih f2 (n / 2) (by omega) (by omega)]

/-- The defining recursion of `ilog2`. -/
theorem ilog2_eq (n : Nat) : ilog2 n = if n ≤ 1 then 0 else ilog2 (n / 2) + 1 := by
  by_cases hn : n ≤ 1
  · interval_cases n <;> simp [ilog2, ilog2Aux, hn]
  · have h2 : 2 ≤ n := by omega
    obtain ⟨n', rfl⟩ : ∃ k, n = k + 1 := ⟨n - 1, by omega⟩
    simp only [ilog2, ilog2Aux, hn, if_false]
    rw [ilog2Aux_congr n' ((n' + 1) / 2) ((n' + 1) / 2) (by omega) le_rfl]

/-- `i8::MIN`, the sentinel marking a node as the root of an allocated block. -/
def USED : Int := -128

/-- The allocator state: `Buddy<T> { buffer, min_order, alloc_tree }` without
the externally owned GPU buffer. -/
structure Buddy where
  min_order : Nat
  alloc_tree : Array Int
deriving DecidableEq, Repr

/-- Rust `usize::next_power_of_two` (`0` maps to `1`). -/
def next_power_of_two (n : Nat) : Nat :=
  if n ≤ 1 then 1 else 2 ^ (ilog2 (n - 1) + 1)

/-- `Buddy::capacity`: `(self.alloc_tree.len() / 2) << self.min_order`. -/
def Buddy.capacity (b : Buddy) : Nat := (b.alloc_tree.size / 2) <<< b.min_order

/-- `Buddy::max_order`: `self.capacity().ilog2()`. -/
def Buddy.max_order (b : Buddy) : Nat := ilog2 b.capacity

/-- The read `tree[i]`; all reads performed by the embedded code are in bounds
on well-formed states (Rust would panic otherwise). -/
def tval (t : Array Int) (i : Nat) : Int := t.getD i 0

/-- `Buddy::new`.  The tree has `(2 * capacity) >> min_order` nodes; node `0`
is set to `i8::MIN` and every node `i ≥ 1` at tree level `l = ilog2 i` receives
the order `max_order - l`, exactly as the level-by-level `fill` loop does.
When `min_order > max_order` the Rust code panics (the `u8` subtraction
`max_order - min_order` underflows, and with the wrapped bound the level slices
run out of the allocated node array), so no allocator value is ever produced;
the embedding returns `none` in that case. -/
def Buddy.new (capacity min_order : Nat) : Option Buddy :=
  let capacity := next_power_of_two capacity
  let max_order := ilog2 capacity
  if min_order ≤ max_order then
    some { min_order := min_order
           alloc_tree := (Array.range ((2 * capacity) >>> min_order)).map
             (fun i => if i = 0 then USED else (max_order : Int) - (ilog2 i : Int)) }
  else none

/-- The loop body of `Buddy::update_parents`, with explicit fuel so that the
function reduces by kernel computation.  The loop index `block` halves at every
iteration, so `block` itself is enough fuel; `update_parents_eq` below recovers
the exact loop recursion. -/
def update_parents_fuel : Nat → Array Int → Nat → Array Int
  | 0, t, _ => t
  | fuel + 1, t, block =>
    if 1 < block then
      let a := tval t (block ^^^ 0)
      let b := tval t (block ^^^ 1)
      let merge : Int := if a = b then 1 else 0
      let parent := block >>> 1
      let old_value := tval t parent
      let new_value := max a b + merge
      let t' := t.setD parent new_value
      if old_value = new_value then t'
      else update_parents_fuel fuel t' parent
    else t

/-- `Buddy::update_parents` on the tree array: recompute each ancestor of
`block` bottom-up from its two children, stopping early as soon as a recomputed
value equals the stored one. -/
def update_parents (t : Array Int) (block : Nat) : Array Int :=
  update_parents_fuel block t block

theorem update_parents_fuel_congr :
    ∀ f1 f2 t block, block ≤ f1 → block ≤ f2 →
      update_parents_fuel f1 t block = update_parents_fuel f2 t block := by
  intro f1
  induction f1 with
  | zero =>
    intro f2 t block h1 _
    have : block = 0 := by omega
    subst this
    cases f2 <;> simp [update_parents_fuel]
  | succ f1 ih =>
    intro f2 t block h1 h2
    by_cases hb : 1 < block
    · cases f2 with
      | zero => omega
      | succ f2 =>
        have hp1 : block >>> 1 ≤ f1 := by
          rw [Nat.shiftRight_eq_div_pow, pow_one]; omega
        have hp2 : block >>> 1 ≤ f2 := by
          rw [Nat.shiftRight_eq_div_pow, pow_one]; omega
        simp only [update_parents_fuel, hb, if_true]
        split <;> split
        any_goals rfl
        all_goals exact ih f2 _ _ hp1 hp2
    · cases f2 with
      | zero =>
        have : block = 0 := by omega
        subst this
        simp [update_parents_fuel]
      | succ f2 => simp [update_parents_fuel, hb]

/-- The loop recursion of `Buddy::update_parents`, read directly off the Rust
source: while `block > 1`, read the two buddies `tree[block ^ 0]` and
`tree[block ^ 1]`, move to the parent, store `max(a, b) + (a == b)` there and
stop if the stored value did not change. -/
theorem update_parents_eq (t : Array Int) (block : Nat) :
    update_parents t block =
      if 1 < block then
        let a := tval t (block ^^^ 0)
        let b := tval t (block ^^^ 1)
        let merge : Int := if a = b then 1 else 0
        let parent := block >>> 1
        let old_value := tval t parent
        let new_value := max a b + merge
        let t' := t.setD parent new_value
        if old_value = new_value then t'
        else update_parents t' parent
      else t := by
  by_cases hb : 1 < block
  · obtain ⟨b', rfl⟩ : ∃ k, block = k + 1 := ⟨block - 1, by omega⟩
    have hp1 : (b' + 1) >>> 1 ≤ b' := by
      rw [Nat.shiftRight_eq_div_pow, pow_one]; omega
    simp only [update_parents, update_parents_fuel, hb, if_true]
    split <;> split
    any_goals rfl
    all_goals exact update_parents_fuel_congr b' ((b' + 1) >>> 1) _ _ hp1 le_rfl
  · cases block with
    | zero => simp [update_parents, update_parents_fuel]
    | succ b' => simp [update_parents, update_parents_fuel, hb]

/-- The descent loop in `Buddy::alloc`: `levels_down` times, move to the even
child and flip to its odd buddy iff the even child is not suitable
(`block ^= !suitable as usize`). -/
def descend (t : Array Int) (target_order : Int) : Nat → Nat → Nat
  | 0, block => block
  | n + 1, block =>
    let block := block <<< 1
    let suitable := target_order ≤ tval t block
    descend t target_order n (block ^^^ (if suitable then 0 else 1))

/-- `Handle::new`: wraps a tree index in `NonZeroUsize`, failing on `0`. -/
def Handle.new (block : Nat) : Option Nat :=
  if block = 0 then none else some block

/-- `Buddy::alloc`.  Returns the handle option together with the state after
the call (the Rust method mutates `self`).  The `u8` subtraction
`self.max_order() - target_order` is embedded as truncating `Nat` subtraction;
it is exercised only when `target_order ≤ max_order`, which the early exit
guarantees on every state satisfying the `v ≤ max_order - ilog2 i` bound
proved below (Rust would panic otherwise). -/
def Buddy.alloc (b : Buddy) (len : Nat) : Option Nat × Buddy :=
  let len := next_power_of_two len
  let target_order := max (ilog2 len) b.min_order
  if tval b.alloc_tree 1 < (target_order : Int) then (none, b)
  else
    let levels_down := b.max_order - target_order
    let block := descend b.alloc_tree (target_order : Int) levels_down 1
    let handle := Handle.new block
    let t := b.alloc_tree.setD block USED
    (handle, { b with alloc_tree := update_parents t block })

/-- `Buddy::free`: restore the node's value to its own order
`max_order - block.ilog2()` (a `u8` subtraction, truncating only on handles no
`alloc` can return) and propagate upward. -/
def Buddy.free (b : Buddy) (handle : Nat) : Buddy :=
  let block := handle
  let order := b.max_order - ilog2 block
  let t := b.alloc_tree.setD block (order : Int)
  { b with alloc_tree := update_parents t block }

/-- `Buddy::write`, embedded as the byte offset it passes to
`Queue::write_buffer` for the given handle: `(block - bias) << order` with
`order = max_order - block.ilog2()` and `bias = 1 << block.ilog2()`.  Note the
source multiplies by no stride. -/
def Buddy.write (b : Buddy) (handle : Nat) : Nat :=
  let block := handle
  let order := b.max_order - ilog2 block
  let bias := 1 <<< ilog2 block
  (block - bias) <<< order

/-- The number of elements of the block addressed by a handle: `2^order`. -/
def Buddy.block_len (b : Buddy) (handle : Nat) : Nat :=
  2 ^ (b.max_order - ilog2 handle)

/-- `Buddy::check_is_same`: element-wise comparison of the two trees. -/
def Buddy.check_is_same (b other : Buddy) : Bool :=
  (List.range b.alloc_tree.size).all fun i =>
    b.alloc_tree.getD i 0 == other.alloc_tree.getD i 0

/-- A request issued against the allocator. -/
inductive Op where
  | alloc : Nat → Op
  | free : Nat → Op
deriving Repr, DecidableEq

/-- One request applied to an allocator paired with the list of live handles:
a successful allocation pushes its handle, a free removes one occurrence. -/
def stepOp (op : Op) (s : Buddy × List Nat) : Buddy × List Nat :=
  match op with
  | .alloc len =>
    match s.1.alloc len with
    | (some h, b') => (b', h :: s.2)
    | (none, b') => (b', s.2)
  | .free h => (s.1.free h, s.2.erase h)

def runOps (s : Buddy × List Nat) : List Op → Buddy × List Nat
  | [] => s
  | op :: ops => runOps (stepOp op s) ops

/-- A request list is valid if every free targets a handle that is live when
the free is executed. -/
def validOps (s : Buddy × List Nat) : List Op → Bool
  | [] => true
  | .alloc len :: ops => validOps (stepOp (.alloc len) s) ops
  | .free h :: ops => s.2.contains h && validOps (stepOp (.free h) s) ops

/-- The transition relation: any allocation request, or a free of a currently
live handle. -/
inductive Step : Buddy × List Nat → Buddy × List Nat → Prop
  | alloc (s : Buddy × List Nat) (len : Nat) : Step s (stepOp (.alloc len) s)
  | free (s : Buddy × List Nat) (h : Nat) : h ∈ s.2 → Step s (stepOp (.free h) s)

/-- Reachability by any number of alloc/free requests. -/
def Reaches : Buddy × List Nat → Buddy × List Nat → Prop :=
  Relation.ReflTransGen Step

/-! ### Basic arithmetic lemmas: `ilog2` and xor on `Nat` -/

theorem ilog2_zero : ilog2 0 = 0 := rfl

theorem ilog2_one : ilog2 1 = 0 := rfl

theorem ilog2_two_pow (e : Nat) : ilog2 (2 ^ e) = e := by
  induction e with
  | zero => rfl
  | succ e ih =>
    rw [ilog2_eq]
    have h1 : 2 ^ (e + 1) / 2 = 2 ^ e := by rw [pow_succ]; omega
    have h2 : ¬ 2 ^ (e + 1) ≤ 1 := by
      have := Nat.one_le_two_pow (n := e)
      rw [pow_succ]; omega
    simp [h2, h1, ih]

theorem ilog2_eq_of {e x : Nat} (h1 : 2 ^ e ≤ x) (h2 : x < 2 ^ (e + 1)) : ilog2 x = e := by
  induction e generalizing x with
  | zero =>
    interval_cases x
    rfl
  | succ e ih =>
    have he : (1 : Nat) ≤ 2 ^ e := Nat.one_le_two_pow
    have hp1 : (2 : Nat) ^ (e + 1) = 2 ^ e * 2 := by rw [pow_succ]
    have hp2 : (2 : Nat) ^ (e + 2) = 2 ^ e * 4 := by rw [pow_succ, pow_succ]; ring
    rw [ilog2_eq]
    have hx : ¬ x ≤ 1 := by omega
    simp only [hx, if_false, Nat.add_right_cancel_iff]
    exact ih (by omega) (by omega)

theorem ilog2_bounds (x : Nat) (h : 1 ≤ x) : 2 ^ ilog2 x ≤ x ∧ x < 2 ^ (ilog2 x + 1) := by
  induction x using Nat.strong_induction_on with
  | _ x ih =>
    by_cases hx : x ≤ 1
    · interval_cases x
      simp [ilog2_one]
    · rw [ilog2_eq]
      simp only [hx, if_false]
      have hd : x / 2 < x := by omega
      have hd1 : 1 ≤ x / 2 := by omega
      obtain ⟨l, r⟩ := ih (x / 2) hd hd1
      have e1 : (2 : Nat) ^ (ilog2 (x / 2) + 1) = 2 ^ ilog2 (x / 2) * 2 := pow_succ 2 _
      have e2 : (2 : Nat) ^ (ilog2 (x / 2) + 1 + 1) = 2 ^ (ilog2 (x / 2) + 1) * 2 := pow_succ 2 _
      constructor
      · omega
      · omega

theorem pow_ilog2_le (x : Nat) (h : 1 ≤ x) : 2 ^ ilog2 x ≤ x := (ilog2_bounds x h).1

theorem lt_pow_ilog2 (x : Nat) (h : 1 ≤ x) : x < 2 ^ (ilog2 x + 1) := (ilog2_bounds x h).2

theorem ilog2_le_of_lt_pow {x j : Nat} (h : x < 2 ^ (j + 1)) : ilog2 x ≤ j := by
  by_cases hx : 1 ≤ x
  · have h1 := pow_ilog2_le x hx
    have := Nat.pow_lt_pow_iff_right (a := 2) (by norm_num) (n := ilog2 x) (m := j + 1)
    omega
  · have : x = 0 := by omega
    subst this
    simp [ilog2_zero]

theorem ilog2_double {p : Nat} (hp : 1 ≤ p) : ilog2 (2 * p) = ilog2 p + 1 := by
  rw [ilog2_eq]
  have h1 : ¬ 2 * p ≤ 1 := by omega
  have h2 : 2 * p / 2 = p := by omega
  simp [h1, h2]

theorem ilog2_double_add_one {p : Nat} (hp : 1 ≤ p) : ilog2 (2 * p + 1) = ilog2 p + 1 := by
  rw [ilog2_eq]
  have h1 : ¬ 2 * p + 1 ≤ 1 := by omega
  have h2 : (2 * p + 1) / 2 = p := by omega
  simp [h1, h2]

theorem xor_one_of_even {x : Nat} (h : x % 2 = 0) : x ^^^ 1 = x + 1 := by
  apply Nat.eq_of_testBit_eq
  intro i
  rw [Nat.testBit_xor]
  cases i with
  | zero =>
    have h1 : (x + 1) % 2 = 1 := by omega
    simp [Nat.testBit_zero, h, h1]
  | succ i =>
    have h1 : (x + 1) / 2 = x / 2 := by omega
    have h2 : (1 : Nat) / 2 = 0 := by norm_num
    simp [Nat.testBit_succ, h1, h2]

theorem xor_one_of_odd {x : Nat} (h : x % 2 = 1) : x ^^^ 1 = x - 1 := by
  apply Nat.eq_of_testBit_eq
  intro i
  rw [Nat.testBit_xor]
  cases i with
  | zero =>
    have h1 : (x - 1) % 2 = 0 := by omega
    simp [Nat.testBit_zero, h, h1]
  | succ i =>
    have h1 : (x - 1) / 2 = x / 2 := by omega
    have h2 : (1 : Nat) / 2 = 0 := by norm_num
    simp [Nat.testBit_succ, h1, h2]

theorem shiftRight_one (x : Nat) : x >>> 1 = x / 2 := by
  rw [Nat.shiftRight_eq_div_pow, pow_one]

theorem shiftLeft_one (x : Nat) : x <<< 1 = 2 * x := by
  rw [Nat.shiftLeft_eq, pow_one, Nat.mul_comm]

/-! ### Basic lemmas about `tval` and `Array.setD` -/

theorem tval_eq_dite (t : Array Int) (i : Nat) :
    tval t i = if h : i < t.size then t[i] else 0 := by
  rw [tval, Array.getD_eq_get?, Array.getD_get?]

theorem tval_setD (t : Array Int) (j : Nat) (v : Int) (hj : j < t.size) (i : Nat) :
    tval (t.setD j v) i = if i = j then v else tval t i := by
  simp only [Array.setD, hj, dite_true]
  rw [tval_eq_dite, tval_eq_dite]
  simp only [Array.size_set]
  by_cases hi : i < t.size
  · simp only [hi, dite_true, Array.getElem_set]
    by_cases hij : i = j
    · simp [hij]
    · have hji : ¬ (j = i) := fun hc => hij hc.symm
      simp [hij, hji]
  · have hij : ¬ (i = j) := by omega
    simp [hi, hij]

theorem tval_ext {t t2 : Array Int} (hsz : t.size = t2.size)
    (hv : ∀ i, tval t i = tval t2 i) : t = t2 := by
  refine Array.ext t t2 hsz (fun i h1 h2 => ?_)
  have := hv i
  rw [tval_eq_dite, tval_eq_dite] at this
  simpa [h1, h2] using this

/-! ### The recomputed parent value and basic `update_parents` lemmas -/

/-- The invariant formula of the design: the value an internal node `n` gets
recomputed to from its two children, `max(a, b) + (a == b)`. -/
def fval (t : Array Int) (n : Nat) : Int :=
  max (tval t (2 * n)) (tval t (2 * n + 1)) +
    (if tval t (2 * n) = tval t (2 * n + 1) then 1 else 0)

/-- The value `update_parents` writes when climbing from `block`. -/
def fstep (t : Array Int) (block : Nat) : Int :=
  max (tval t (block ^^^ 0)) (tval t (block ^^^ 1)) +
    (if tval t (block ^^^ 0) = tval t (block ^^^ 1) then 1 else 0)

theorem fstep_eq_fval (t : Array Int) {b : Nat} (hb : 1 < b) :
    fstep t b = fval t (b >>> 1) := by
  rw [fstep, fval, Nat.xor_zero, shiftRight_one]
  rcases Nat.even_or_odd b with he | ho
  · have h2 : b % 2 = 0 := Nat.even_iff.mp he
    have e1 : b ^^^ 1 = b + 1 := xor_one_of_even h2
    have e2 : 2 * (b / 2) = b := by omega
    rw [e1, e2]
  · have h2 : b % 2 = 1 := Nat.odd_iff.mp ho
    have e1 : b ^^^ 1 = b - 1 := xor_one_of_odd h2
    have e2 : 2 * (b / 2) = b - 1 := by omega
    rw [e1, e2]
    have e4 : b - 1 + 1 = b := by omega
    rw [e4, max_comm]
    congr 1
    by_cases hq : tval t b = tval t (b - 1)
    · simp [hq]
    · have hq' : ¬ tval t (b - 1) = tval t b := fun hc => hq hc.symm
      simp [hq, hq']

/-- One loop iteration of `update_parents`, stated with `fstep`. -/
theorem update_parents_step (t : Array Int) {b : Nat} (hb : 1 < b) :
    update_parents t b =
      if tval t (b >>> 1) = fstep t b then t.setD (b >>> 1) (fstep t b)
      else update_parents (t.setD (b >>> 1) (fstep t b)) (b >>> 1) := by
  rw [update_parents_eq]
  simp only [hb, if_true]
  rfl

theorem update_parents_of_le {t : Array Int} {b : Nat} (hb : b ≤ 1) :
    update_parents t b = t := by
  rw [update_parents_eq]
  have : ¬ 1 < b := by omega
  simp [this]

theorem setD_oob {t : Array Int} {j : Nat} (hj : ¬ j < t.size) (v : Int) : t.setD j v = t := by
  simp [Array.setD, hj]

theorem tval_setD_self {t : Array Int} {j : Nat} {v : Int} (h : tval t j = v) (i : Nat) :
    tval (t.setD j v) i = tval t i := by
  by_cases hj : j < t.size
  · rw [tval_setD t j v hj i]
    by_cases hij : i = j
    · subst hij
      simp [h]
    · simp [hij]
  · rw [setD_oob hj]

theorem tval_changed_setD {t : Array Int} {j : Nat} {v : Int} {i : Nat}
    (h : tval (t.setD j v) i ≠ tval t i) : i = j ∧ j < t.size := by
  by_cases hj : j < t.size
  · rw [tval_setD t j v hj i] at h
    by_cases hij : i = j
    · exact ⟨hij, hj⟩
    · simp [hij] at h
  · rw [setD_oob hj] at h
    exact absurd rfl h

theorem parent_lt {b : Nat} (hb : 1 < b) : b >>> 1 < b := by
  rw [shiftRight_one]; omega

theorem parent_pos {b : Nat} (hb : 1 < b) : 1 ≤ b >>> 1 := by
  rw [shiftRight_one]; omega

theorem two_mul_parent_le {b : Nat} (hb : 1 < b) : 2 * (b >>> 1) ≤ b := by
  rw [shiftRight_one]; omega

/-- For `b ≥ 2`, the pair `(b, b ^^^ 1)` is exactly the child pair
`(2p, 2p + 1)` of the parent `p = b >>> 1`, in one of the two orders. -/
theorem buddy_pair {b : Nat} (hb : 1 < b) :
    (b = 2 * (b >>> 1) ∧ b ^^^ 1 = 2 * (b >>> 1) + 1) ∨
    (b = 2 * (b >>> 1) + 1 ∧ b ^^^ 1 = 2 * (b >>> 1)) := by
  rw [shiftRight_one]
  rcases Nat.even_or_odd b with he | ho
  · have h2 : b % 2 = 0 := Nat.even_iff.mp he
    exact Or.inl ⟨by omega, by rw [xor_one_of_even h2]; omega⟩
  · have h2 : b % 2 = 1 := Nat.odd_iff.mp ho
    exact Or.inr ⟨by omega, by rw [xor_one_of_odd h2]; omega⟩

theorem up_size (t : Array Int) (b : Nat) : (update_parents t b).size = t.size := by
  induction b using Nat.strong_induction_on generalizing t with
  | _ b ih =>
    by_cases hb : 1 < b
    · rw [update_parents_step t hb]
      split
      · rw [Array.size_setD]
      · rw [ih _ (parent_lt hb), Array.size_setD]
    · rw [update_parents_of_le (by omega)]

/-- `update_parents` only modifies strict ancestors of `block`. -/
theorem up_frame (t : Array Int) (b : Nat) :
    ∀ i, tval (update_parents t b) i ≠ tval t i → 1 ≤ i ∧ 2 * i ≤ b := by
  induction b using Nat.strong_induction_on generalizing t with
  | _ b ih =>
    intro i hne
    by_cases hb : 1 < b
    · rw [update_parents_step t hb] at hne
      have hp1 : 1 ≤ b >>> 1 := parent_pos hb
      have hp2 : 2 * (b >>> 1) ≤ b := two_mul_parent_le hb
      revert hne
      split
      · intro hne
        obtain ⟨rfl, _⟩ := tval_changed_setD hne
        exact ⟨hp1, hp2⟩
      · intro hne
        by_cases hch : tval (update_parents (t.setD (b >>> 1) (fstep t b)) (b >>> 1)) i =
            tval (t.setD (b >>> 1) (fstep t b)) i
        · rw [hch] at hne
          obtain ⟨rfl, _⟩ := tval_changed_setD hne
          exact ⟨hp1, hp2⟩
        · obtain ⟨h1, h2⟩ := ih _ (parent_lt hb) _ _ hch
          have := parent_lt hb
          exact ⟨h1, by omega⟩
    · rw [update_parents_of_le (by omega)] at hne
      exact absurd rfl hne

/-- The recomputed value `max(a, b) + (a == b)` is at least `-127` whenever the
stored values are at least `-128`: propagation can never write the sentinel. -/
theorem fstep_lower {t : Array Int} {b : Nat} (hlo : ∀ n, -128 ≤ tval t n) :
    -127 ≤ fstep t b := by
  rw [fstep]
  have ha := hlo (b ^^^ 0)
  have hc := hlo (b ^^^ 1)
  have hm := max_choice (tval t (b ^^^ 0)) (tval t (b ^^^ 1))
  have hml := le_max_left (tval t (b ^^^ 0)) (tval t (b ^^^ 1))
  have hmr := le_max_right (tval t (b ^^^ 0)) (tval t (b ^^^ 1))
  by_cases hq : tval t (b ^^^ 0) = tval t (b ^^^ 1)
  · simp only [hq, if_true]
    omega
  · simp only [hq, if_false]
    rcases hm with h | h <;> omega

/-- `update_parents` preserves the lower bound `-128` and every value it
actually writes is at least `-127`. -/
theorem up_low (t : Array Int) (b : Nat) (hlo : ∀ n, -128 ≤ tval t n) :
    (∀ n, -128 ≤ tval (update_parents t b) n) ∧
    (∀ i, tval (update_parents t b) i = tval t i ∨ -127 ≤ tval (update_parents t b) i) := by
  induction b using Nat.strong_induction_on generalizing t with
  | _ b ih =>
    by_cases hb : 1 < b
    · rw [update_parents_step t hb]
      have hstep : -127 ≤ fstep t b := fstep_lower hlo
      have hlo' : ∀ n, -128 ≤ tval (t.setD (b >>> 1) (fstep t b)) n := by
        intro n
        by_cases hj : b >>> 1 < t.size
        · rw [tval_setD t _ _ hj n]
          split
          · omega
          · exact hlo n
        · rw [setD_oob hj]
          exact hlo n
      have hd' : ∀ i, tval (t.setD (b >>> 1) (fstep t b)) i = tval t i ∨
          -127 ≤ tval (t.setD (b >>> 1) (fstep t b)) i := by
        intro i
        by_cases hch : tval (t.setD (b >>> 1) (fstep t b)) i = tval t i
        · exact Or.inl hch
        · obtain ⟨hi, hj⟩ := tval_changed_setD hch
          subst hi
          refine Or.inr ?_
          rw [tval_setD t _ _ hj (b >>> 1)]
          simp
          omega
      split
      · exact ⟨hlo', hd'⟩
      · obtain ⟨l, d⟩ := ih _ (parent_lt hb) _ hlo'
        refine ⟨l, fun i => ?_⟩
        rcases d i with h | h
        · rcases hd' i with h2 | h2
          · exact Or.inl (h.trans h2)
          · exact Or.inr (h ▸ h2)
        · exact Or.inr h
    · rw [update_parents_of_le (by omega)]
      exact ⟨hlo, fun i => Or.inl rfl⟩

/-- The per-node invariant the code actually maintains: an internal node is
either coherent with the invariant formula, or stores its own order
(`max_order - level`), or stores the `USED` sentinel. -/
def cohAt (maxo : Nat) (t : Array Int) (n : Nat) : Prop :=
  tval t n = fval t n ∨ tval t n = (maxo : Int) - (ilog2 n : Int) ∨ tval t n = USED

theorem cohAt_congr {maxo : Nat} {t t' : Array Int} {n : Nat}
    (h1 : tval t' n = tval t n) (h2 : tval t' (2 * n) = tval t (2 * n))
    (h3 : tval t' (2 * n + 1) = tval t (2 * n + 1)) (h : cohAt maxo t n) :
    cohAt maxo t' n := by
  rw [cohAt, fval, h1, h2, h3]
  exact h

theorem child_eq_iff {n p : Nat} (hn : 1 ≤ n) : (2 * n = p ∨ 2 * n + 1 = p) ↔ n = p >>> 1 := by
  rw [shiftRight_one]
  omega

/-- `update_parents` re-establishes the per-node invariant: if before the call
every internal node except possibly the parent of `block` satisfies it, then
after the call every internal node does. -/
theorem up_coh (maxo : Nat) (t : Array Int) (b : Nat) (hb2 : b < t.size)
    (hpre : ∀ n, 1 ≤ n → 2 * n + 1 < t.size → n ≠ b >>> 1 → cohAt maxo t n) :
    ∀ n, 1 ≤ n → 2 * n + 1 < t.size → cohAt maxo (update_parents t b) n := by
  induction b using Nat.strong_induction_on generalizing t with
  | _ b ih =>
    by_cases hb : 1 < b
    · have hp1 : 1 ≤ b >>> 1 := parent_pos hb
      have hplt : b >>> 1 < b := parent_lt hb
      have hpsz : b >>> 1 < t.size := by omega
      have hppne : b >>> 1 ≠ (b >>> 1) >>> 1 := by
        rw [shiftRight_one, shiftRight_one]
        omega
      have f4 : fstep t b = fval t (b >>> 1) := fstep_eq_fval t hb
      have f1 : tval (t.setD (b >>> 1) (fstep t b)) (b >>> 1) = fstep t b := by
        rw [tval_setD t _ _ hpsz]
        simp
      have f2 : ∀ x, x ≠ b >>> 1 → tval (t.setD (b >>> 1) (fstep t b)) x = tval t x := by
        intro x hx
        rw [tval_setD t _ _ hpsz]
        simp [hx]
      have fc1 : (2 * (b >>> 1) : Nat) ≠ b >>> 1 := by omega
      have fc2 : (2 * (b >>> 1) + 1 : Nat) ≠ b >>> 1 := by omega
      have hcoh_p : cohAt maxo (t.setD (b >>> 1) (fstep t b)) (b >>> 1) := by
        refine Or.inl ?_
        rw [f1, fval, f2 _ fc1, f2 _ fc2, f4, fval]
      have hcoh_t' : ∀ n, 1 ≤ n → 2 * n + 1 < t.size → n ≠ (b >>> 1) >>> 1 →
          cohAt maxo (t.setD (b >>> 1) (fstep t b)) n := by
        intro n hn hni hnp
        by_cases hnp2 : n = b >>> 1
        · subst hnp2
          exact hcoh_p
        · have hch : ¬ (2 * n = b >>> 1 ∨ 2 * n + 1 = b >>> 1) := by
            rw [child_eq_iff hn]
            exact hnp
          push_neg at hch
          exact cohAt_congr (f2 n hnp2) (f2 _ hch.1) (f2 _ hch.2)
            (hpre n hn hni hnp2)
      rw [update_parents_step t hb]
      split
      · intro n hn hni
        rename_i hbreak
        have heqv : ∀ i, tval (t.setD (b >>> 1) (fstep t b)) i = tval t i :=
          tval_setD_self hbreak
        by_cases hnp : n = b >>> 1
        · subst hnp
          exact hcoh_p
        · exact cohAt_congr (heqv n) (heqv _) (heqv _) (hpre n hn hni hnp)
      · intro n hn hni
        have hsz' : (t.setD (b >>> 1) (fstep t b)).size = t.size := Array.size_setD ..
        refine ih _ hplt _ (by omega) ?_ n hn (by omega)
        intro n' hn' hni' hnp'
        exact hcoh_t' n' hn' (by omega) hnp'
    · intro n hn hni
      rw [update_parents_of_le (by omega)]
      refine hpre n hn hni ?_
      have : b >>> 1 = 0 := by rw [shiftRight_one]; omega
      omega

/-- `update_parents` preserves the upper bound `v(i) ≤ max_order - level(i)`. -/
theorem up_high (maxo M : Nat) (t : Array Int) (b : Nat) (hsz : t.size = 2 ^ M)
    (hb1 : 1 ≤ b) (hb2 : b < t.size)
    (hhi : ∀ n, 1 ≤ n → n < t.size → tval t n ≤ (maxo : Int) - (ilog2 n : Int)) :
    ∀ n, 1 ≤ n → n < t.size → tval (update_parents t b) n ≤ (maxo : Int) - (ilog2 n : Int) := by
  induction b using Nat.strong_induction_on generalizing t with
  | _ b ih =>
    by_cases hb : 1 < b
    · have hp1 : 1 ≤ b >>> 1 := parent_pos hb
      have hplt : b >>> 1 < b := parent_lt hb
      have hpsz : b >>> 1 < t.size := by omega
      have hy1 : 1 ≤ b ^^^ 1 := by
        rcases buddy_pair hb with ⟨h1, h2⟩ | ⟨h1, h2⟩ <;> omega
      have hysz : b ^^^ 1 < t.size := by
        rw [hsz]
        rw [hsz] at hb2
        have h2M : 2 ≤ 2 ^ M := by omega
        exact Nat.xor_lt_two_pow hb2 (by omega)
      have hlogb : ilog2 b = ilog2 (b >>> 1) + 1 ∧ ilog2 (b ^^^ 1) = ilog2 (b >>> 1) + 1 := by
        rcases buddy_pair hb with ⟨h1, h2⟩ | ⟨h1, h2⟩
        · constructor
          · conv_lhs => rw [h1]
            exact ilog2_double hp1
          · rw [h2]
            exact ilog2_double_add_one hp1
        · constructor
          · conv_lhs => rw [h1]
            exact ilog2_double_add_one hp1
          · rw [h2]
            exact ilog2_double hp1
      have hstep : fstep t b ≤ (maxo : Int) - (ilog2 (b >>> 1) : Int) := by
        rw [fstep, Nat.xor_zero]
        have hA : tval t b ≤ (maxo : Int) - (ilog2 b : Int) := hhi b (by omega) hb2
        have hC : tval t (b ^^^ 1) ≤ (maxo : Int) - (ilog2 (b ^^^ 1) : Int) := hhi _ hy1 hysz
        rw [hlogb.1] at hA
        rw [hlogb.2] at hC
        push_cast at hA hC ⊢
        have hm := max_choice (tval t b) (tval t (b ^^^ 1))
        by_cases hq : tval t b = tval t (b ^^^ 1)
        · simp only [hq, if_true]
          rcases hm with h | h <;> omega
        · simp only [hq, if_false]
          rcases hm with h | h <;> omega
      have hhi' : ∀ n, 1 ≤ n → n < t.size →
          tval (t.setD (b >>> 1) (fstep t b)) n ≤ (maxo : Int) - (ilog2 n : Int) := by
        intro n hn hnsz
        rw [tval_setD t _ _ hpsz]
        by_cases hnp : n = b >>> 1
        · simp only [hnp, if_true]
          exact hnp ▸ hstep
        · simp only [hnp, if_false]
          exact hhi n hn hnsz
      rw [update_parents_step t hb]
      have hsz' : (t.setD (b >>> 1) (fstep t b)).size = t.size := Array.size_setD ..
      split
      · intro n hn hnsz
        exact hhi' n hn hnsz
      · intro n hn hnsz
        refine ih _ hplt _ (by omega) hp1 (by omega) ?_ n hn (by omega)
        intro n' hn' hnsz'
        exact hhi' n' hn' (by omega)
    · intro n hn hnsz
      have : b = 1 := by omega
      subst this
      rw [update_parents_of_le (by omega)]
      exact hhi n hn hnsz

/-! ### Shape lemmas for `new`, `alloc`, `free` -/

theorem npot_pow (C : Nat) : next_power_of_two C = 2 ^ ilog2 (next_power_of_two C) := by
  rw [next_power_of_two]
  split
  · simp [ilog2_one]
  · rw [ilog2_two_pow]

theorem tval_mk (n : Nat) (f : Nat → Int) (i : Nat) :
    tval ((Array.range n).map f) i = if i < n then f i else 0 := by
  rw [tval_eq_dite]
  have hsz : ((Array.range n).map f).size = n := by
    rw [Array.size_map, Array.size_range]
  split
  · rename_i h
    rw [hsz] at h
    simp only [h, if_true]
    rw [Array.getElem_map]
    congr 1
    exact Array.getElem_range _
  · rename_i h
    rw [hsz] at h
    simp [h]

/-- What `Buddy::new` produces, when it succeeds. -/
theorem new_spec {C m : Nat} {b0 : Buddy} (h : Buddy.new C m = some b0) :
    b0.min_order = m ∧ m ≤ ilog2 (next_power_of_two C) ∧
    b0.alloc_tree.size = 2 ^ (ilog2 (next_power_of_two C) - m + 1) ∧
    ∀ i, tval b0.alloc_tree i =
      if i < 2 ^ (ilog2 (next_power_of_two C) - m + 1) then
        (if i = 0 then USED else (ilog2 (next_power_of_two C) : Int) - (ilog2 i : Int))
      else 0 := by
  rw [Buddy.new] at h
  by_cases hml : m ≤ ilog2 (next_power_of_two C)
  · simp only [hml, if_true, Option.some_inj] at h
    subst h
    have hsz : ((2 * next_power_of_two C) >>> m) = 2 ^ (ilog2 (next_power_of_two C) - m + 1) := by
      conv_lhs => rw [npot_pow C]
      rw [Nat.shiftRight_eq_div_pow]
      have h1 : 2 * 2 ^ ilog2 (next_power_of_two C) = 2 ^ (ilog2 (next_power_of_two C) + 1) := by
        rw [pow_succ]; ring
      rw [h1, Nat.pow_div (by omega) (by norm_num)]
      congr 1
      omega
    refine ⟨rfl, hml, ?_, ?_⟩
    · simp only [Array.size_map, Array.size_range, hsz]
    · intro i
      rw [tval_mk, hsz]
  · simp [hml] at h

/-- `capacity` and `max_order` of any allocator whose tree has the well-formed
size `2 ^ (maxo - m + 1)`. -/
theorem max_order_of_size {b : Buddy} {m maxo : Nat} (hm : b.min_order = m)
    (hsz : b.alloc_tree.size = 2 ^ (maxo - m + 1)) (hml : m ≤ maxo) :
    b.capacity = 2 ^ maxo ∧ b.max_order = maxo := by
  have hc : b.capacity = 2 ^ maxo := by
    rw [Buddy.capacity, hm, hsz, Nat.shiftLeft_eq]
    have h1 : (2 : Nat) ^ (maxo - m + 1) = 2 ^ (maxo - m) * 2 := by rw [pow_succ]
    rw [h1]
    have h2 : 2 ^ (maxo - m) * 2 / 2 = 2 ^ (maxo - m) := by omega
    rw [h2, ← pow_add]
    congr 1
    omega
  exact ⟨hc, by rw [Buddy.max_order, hc, ilog2_two_pow]⟩

/-- The requested order of `alloc(len)`. -/
def target_order (b : Buddy) (len : Nat) : Nat :=
  max (ilog2 (next_power_of_two len)) b.min_order

theorem descend_range (t : Array Int) (tgt : Int) :
    ∀ (l : Nat) (blk : Nat),
      2 ^ l * blk ≤ descend t tgt l blk ∧ descend t tgt l blk < 2 ^ l * (blk + 1) := by
  intro l
  induction l with
  | zero =>
    intro blk
    simp [descend]
  | succ l ih =>
    intro blk
    have hnext : descend t tgt (l + 1) blk = descend t tgt l
        ((blk <<< 1) ^^^ (if tgt ≤ tval t (blk <<< 1) then 0 else 1)) := by
      simp only [descend]
    have hsl : blk <<< 1 = 2 * blk := shiftLeft_one blk
    have hor : (blk <<< 1) ^^^ (if tgt ≤ tval t (blk <<< 1) then 0 else 1) = 2 * blk ∨
        (blk <<< 1) ^^^ (if tgt ≤ tval t (blk <<< 1) then 0 else 1) = 2 * blk + 1 := by
      split
      · rw [hsl, Nat.xor_zero]
        exact Or.inl rfl
      · rw [hsl, xor_one_of_even (by omega)]
        exact Or.inr rfl
    have hp : (2 : Nat) ^ (l + 1) = 2 ^ l * 2 := pow_succ 2 l
    rcases hor with he | he <;> rw [hnext, he]
    · obtain ⟨l1, r1⟩ := ih (2 * blk)
      constructor
      · have e1 : 2 ^ (l + 1) * blk = 2 ^ l * (2 * blk) := by rw [hp]; ring
        omega
      · have e2 : 2 ^ l * (2 * blk + 1) ≤ 2 ^ l * (2 * (blk + 1)) :=
          Nat.mul_le_mul_left _ (by omega)
        have e3 : 2 ^ l * (2 * (blk + 1)) = 2 ^ (l + 1) * (blk + 1) := by rw [hp]; ring
        omega
    · obtain ⟨l1, r1⟩ := ih (2 * blk + 1)
      constructor
      · have e1 : 2 ^ (l + 1) * blk ≤ 2 ^ l * (2 * blk + 1) := by
          have : 2 ^ l * (2 * blk) ≤ 2 ^ l * (2 * blk + 1) := Nat.mul_le_mul_left _ (by omega)
          have e : 2 ^ (l + 1) * blk = 2 ^ l * (2 * blk) := by rw [hp]; ring
          omega
        omega
      · have e2 : 2 ^ l * (2 * blk + 1 + 1) = 2 ^ (l + 1) * (blk + 1) := by rw [hp]; ring
        omega
theorem USED_eq : USED = -128 := rfl

theorem alloc_fail {b : Buddy} {len : Nat}
    (h : tval b.alloc_tree 1 < (target_order b len : Int)) :
    b.alloc len = (none, b) := by
  rw [target_order] at h
  simp only [Buddy.alloc]
  rw [if_pos h]

theorem alloc_succ {b : Buddy} {len : Nat}
    (h : ¬ tval b.alloc_tree 1 < (target_order b len : Int)) :
    b.alloc len =
      (some (descend b.alloc_tree (target_order b len) (b.max_order - target_order b len) 1),
       { b with alloc_tree :=
          (update_parents
            (b.alloc_tree.setD
              (descend b.alloc_tree (target_order b len)
                (b.max_order - target_order b len) 1) USED)
            (descend b.alloc_tree (target_order b len)
              (b.max_order - target_order b len) 1)) }) := by
  have hblk1 : 1 ≤ descend b.alloc_tree (target_order b len)
      (b.max_order - target_order b len) 1 := by
    have := (descend_range b.alloc_tree (target_order b len)
      (b.max_order - target_order b len) 1).1
    have hp : (1 : Nat) ≤ 2 ^ (b.max_order - target_order b len) := Nat.one_le_two_pow
    omega
  rw [target_order] at h
  rw [target_order] at hblk1
  simp only [Buddy.alloc]
  rw [if_neg h, Handle.new]
  rw [target_order]
  simp only [show descend b.alloc_tree (max (ilog2 (next_power_of_two len)) b.min_order : Nat)
      (b.max_order - max (ilog2 (next_power_of_two len)) b.min_order) 1 ≠ 0 by omega, if_false]

theorem stepOp_alloc_fail (s : Buddy × List Nat) (len : Nat)
    (h : tval s.1.alloc_tree 1 < (target_order s.1 len : Int)) :
    stepOp (.alloc len) s = s := by
  simp [stepOp, alloc_fail h]

theorem stepOp_alloc_succ (s : Buddy × List Nat) (len : Nat)
    (h : ¬ tval s.1.alloc_tree 1 < (target_order s.1 len : Int)) :
    stepOp (.alloc len) s =
      ({ s.1 with alloc_tree :=
          (update_parents
            (s.1.alloc_tree.setD
              (descend s.1.alloc_tree (target_order s.1 len)
                (s.1.max_order - target_order s.1 len) 1) USED)
            (descend s.1.alloc_tree (target_order s.1 len)
              (s.1.max_order - target_order s.1 len) 1)) },
        descend s.1.alloc_tree (target_order s.1 len)
          (s.1.max_order - target_order s.1 len) 1 :: s.2) := by
  simp [stepOp, alloc_succ h]

theorem free_eq (b : Buddy) (h : Nat) :
    b.free h = { b with alloc_tree :=
      (update_parents (b.alloc_tree.setD h ((b.max_order - ilog2 h : Nat) : Int)) h) } := rfl

/-- The inductive invariant of reachable allocator states, for an allocator of
minimum order `m` and maximum order `maxo`:
the tree size and node `0` are fixed, every leaf holds `USED` or `m`, every
internal node is formula-coherent or holds its own order or `USED`, all values
are in `[-128, max_order - level]`, every `USED` node is a live handle, and
every live handle is a valid node index. -/
structure SysInv (m maxo : Nat) (s : Buddy × List Nat) : Prop where
  hmin : s.1.min_order = m
  hml : m ≤ maxo
  hsz : s.1.alloc_tree.size = 2 ^ (maxo - m + 1)
  h0 : tval s.1.alloc_tree 0 = USED
  hleaf : ∀ i, 2 ^ (maxo - m) ≤ i → i < 2 ^ (maxo - m + 1) →
    tval s.1.alloc_tree i = USED ∨ tval s.1.alloc_tree i = (m : Int)
  hcoh : ∀ n, 1 ≤ n → 2 * n + 1 < 2 ^ (maxo - m + 1) → cohAt maxo s.1.alloc_tree n
  hlow : ∀ n, -128 ≤ tval s.1.alloc_tree n
  hhigh : ∀ n, 1 ≤ n → n < 2 ^ (maxo - m + 1) →
    tval s.1.alloc_tree n ≤ (maxo : Int) - (ilog2 n : Int)
  hused : ∀ n, 1 ≤ n → tval s.1.alloc_tree n = USED → n ∈ s.2
  hlive : ∀ h, h ∈ s.2 → 1 ≤ h ∧ h < 2 ^ (maxo - m + 1)

theorem inv_alloc {m maxo : Nat} {s : Buddy × List Nat} (len : Nat) (hI : SysInv m maxo s) :
    SysInv m maxo (stepOp (.alloc len) s) := by
  obtain ⟨hmin, hml, hsz, h0, hleaf, hcoh, hlow, hhigh, hused, hlive⟩ := hI
  by_cases hroot : tval s.1.alloc_tree 1 < (target_order s.1 len : Int)
  · rw [stepOp_alloc_fail s len hroot]
    exact ⟨hmin, hml, hsz, h0, hleaf, hcoh, hlow, hhigh, hused, hlive⟩
  · rw [stepOp_alloc_succ s len hroot]
    have hM : s.1.max_order = maxo := (max_order_of_size hmin hsz hml).2
    have hmt : m ≤ target_order s.1 len := by
      rw [target_order, hmin]
      exact le_max_right _ _
    have hlle : s.1.max_order - target_order s.1 len ≤ maxo - m := by omega
    have hrange := descend_range s.1.alloc_tree (target_order s.1 len)
      (s.1.max_order - target_order s.1 len) 1
    have hone : (1 : Nat) ≤ 2 ^ (s.1.max_order - target_order s.1 len) := Nat.one_le_two_pow
    have hblk1 : 1 ≤ descend s.1.alloc_tree (target_order s.1 len)
        (s.1.max_order - target_order s.1 len) 1 := by omega
    have hpowle : (2 : Nat) ^ (s.1.max_order - target_order s.1 len + 1) ≤
        2 ^ (maxo - m + 1) := Nat.pow_le_pow_right (by norm_num) (by omega)
    have hpows : (2 : Nat) ^ (s.1.max_order - target_order s.1 len) * 2 =
        2 ^ (s.1.max_order - target_order s.1 len + 1) := (pow_succ 2 _).symm
    have hblksz : descend s.1.alloc_tree (target_order s.1 len)
        (s.1.max_order - target_order s.1 len) 1 < 2 ^ (maxo - m + 1) := by omega
    generalize hB : descend s.1.alloc_tree (target_order s.1 len)
      (s.1.max_order - target_order s.1 len) 1 = blk at *
    have hblkt : blk < s.1.alloc_tree.size := by omega
    have hszt1 : (s.1.alloc_tree.setD blk USED).size = 2 ^ (maxo - m + 1) := by
      rw [Array.size_setD, hsz]
    have hlow1 : ∀ n, -128 ≤ tval (s.1.alloc_tree.setD blk USED) n := by
      intro n
      rw [tval_setD _ _ _ hblkt n]
      split
      · rw [USED_eq]
      · exact hlow n
    have hfr : ∀ i, tval (update_parents (s.1.alloc_tree.setD blk USED) blk) i =
        tval (s.1.alloc_tree.setD blk USED) i ∨ (1 ≤ i ∧ 2 * i ≤ blk) := by
      intro i
      by_cases hch : tval (update_parents (s.1.alloc_tree.setD blk USED) blk) i =
          tval (s.1.alloc_tree.setD blk USED) i
      · exact Or.inl hch
      · exact Or.inr (up_frame _ _ _ hch)
    refine ⟨hmin, hml, ?_, ?_, ?_, ?_, ?_, ?_, ?_, ?_⟩
    · rw [up_size, hszt1]
    · rcases hfr 0 with h | h
      · rw [h, tval_setD _ _ _ hblkt 0]
        simp only [show (0 : Nat) ≠ blk by omega, if_false]
        exact h0
      · omega
    · intro i hi1 hi2
      have hps : (2 : Nat) ^ (maxo - m) * 2 = 2 ^ (maxo - m + 1) := (pow_succ 2 _).symm
      rcases hfr i with h | h
      · rw [h, tval_setD _ _ _ hblkt i]
        by_cases hib : i = blk
        · simp [hib]
        · simp only [hib, if_false]
          exact hleaf i hi1 hi2
      · omega
    · have hpre : ∀ n, 1 ≤ n → 2 * n + 1 < (s.1.alloc_tree.setD blk USED).size →
          n ≠ blk >>> 1 → cohAt maxo (s.1.alloc_tree.setD blk USED) n := by
        intro n hn hni hnp
        by_cases hnb : n = blk
        · refine Or.inr (Or.inr ?_)
          rw [hnb, tval_setD _ _ _ hblkt blk]
          simp
        · have hch : ¬ (2 * n = blk ∨ 2 * n + 1 = blk) := by
            rw [child_eq_iff hn]
            exact hnp
          push_neg at hch
          refine cohAt_congr ?_ ?_ ?_ (hcoh n hn (by omega))
          · rw [tval_setD _ _ _ hblkt n]
            simp [hnb]
          · rw [tval_setD _ _ _ hblkt (2 * n)]
            simp [hch.1]
          · rw [tval_setD _ _ _ hblkt (2 * n + 1)]
            simp [hch.2]
      intro n hn hni
      exact up_coh maxo (s.1.alloc_tree.setD blk USED) blk (by omega) hpre n hn (by omega)
    · exact (up_low _ _ hlow1).1
    · have hhi1 : ∀ n, 1 ≤ n → n < (s.1.alloc_tree.setD blk USED).size →
          tval (s.1.alloc_tree.setD blk USED) n ≤ (maxo : Int) - (ilog2 n : Int) := by
        intro n hn hnsz
        rw [tval_setD _ _ _ hblkt n]
        split
        · have h5 : (2 : Nat) ^ (maxo - m + 1) ≤ 2 ^ (maxo + 1) :=
            Nat.pow_le_pow_right (by norm_num) (by omega)
          have hlt : n < 2 ^ (maxo + 1) := by omega
          have hlog : ilog2 n ≤ maxo := ilog2_le_of_lt_pow hlt
          rw [USED_eq]
          omega
        · exact hhigh n hn (by omega)
      intro n hn hnsz
      exact up_high maxo (maxo - m + 1) (s.1.alloc_tree.setD blk USED) blk hszt1 hblk1
        (by omega) hhi1 n hn (by omega)
    · intro n hn hnu
      rcases (up_low _ _ hlow1).2 n with h | h
      · rw [h, tval_setD _ _ _ hblkt n] at hnu
        by_cases hnb : n = blk
        · rw [hnb]
          exact List.mem_cons_self _ _
        · rw [if_neg hnb] at hnu
          exact List.mem_cons_of_mem _ (hused n hn hnu)
      · rw [hnu, USED_eq] at h
        omega
    · intro h hh
      rcases List.mem_cons.mp hh with h1 | h1
      · omega
      · exact hlive h h1

theorem inv_free {m maxo : Nat} {s : Buddy × List Nat} (h : Nat) (hI : SysInv m maxo s)
    (hh : h ∈ s.2) : SysInv m maxo (stepOp (.free h) s) := by
  obtain ⟨hmin, hml, hsz, h0, hleaf, hcoh, hlow, hhigh, hused, hlive⟩ := hI
  obtain ⟨hh1, hh2⟩ := hlive h hh
  have hM : s.1.max_order = maxo := (max_order_of_size hmin hsz hml).2
  have hlog : ilog2 h ≤ maxo - m := ilog2_le_of_lt_pow hh2
  have hcast : ((s.1.max_order - ilog2 h : Nat) : Int) = (maxo : Int) - (ilog2 h : Int) := by
    rw [hM]
    push_cast [Nat.cast_sub (by omega : ilog2 h ≤ maxo)]
    ring
  have hbt : h < s.1.alloc_tree.size := by omega
  have hszt1 : (s.1.alloc_tree.setD h ((s.1.max_order - ilog2 h : Nat) : Int)).size =
      2 ^ (maxo - m + 1) := by
    rw [Array.size_setD, hsz]
  have hlow1 : ∀ n, -128 ≤ tval (s.1.alloc_tree.setD h
      ((s.1.max_order - ilog2 h : Nat) : Int)) n := by
    intro n
    rw [tval_setD _ _ _ hbt n]
    split
    · rw [hcast]
      omega
    · exact hlow n
  have hfr : ∀ i, tval (update_parents (s.1.alloc_tree.setD h
        ((s.1.max_order - ilog2 h : Nat) : Int)) h) i =
      tval (s.1.alloc_tree.setD h ((s.1.max_order - ilog2 h : Nat) : Int)) i ∨
      (1 ≤ i ∧ 2 * i ≤ h) := by
    intro i
    by_cases hch : tval (update_parents (s.1.alloc_tree.setD h
        ((s.1.max_order - ilog2 h : Nat) : Int)) h) i =
        tval (s.1.alloc_tree.setD h ((s.1.max_order - ilog2 h : Nat) : Int)) i
    · exact Or.inl hch
    · exact Or.inr (up_frame _ _ _ hch)
  have hstep : stepOp (.free h) s = (s.1.free h, s.2.erase h) := rfl
  rw [hstep, free_eq]
  refine ⟨hmin, hml, ?_, ?_, ?_, ?_, ?_, ?_, ?_, ?_⟩
  · rw [up_size, hszt1]
  · rcases hfr 0 with hq | hq
    · rw [hq, tval_setD _ _ _ hbt 0]
      simp only [show (0 : Nat) ≠ h by omega, if_false]
      exact h0
    · omega
  · intro i hi1 hi2
    have hps : (2 : Nat) ^ (maxo - m) * 2 = 2 ^ (maxo - m + 1) := (pow_succ 2 _).symm
    rcases hfr i with hq | hq
    · rw [hq, tval_setD _ _ _ hbt i]
      by_cases hib : i = h
      · subst hib
        have hleafh : ilog2 i = maxo - m := ilog2_eq_of hi1 hi2
        refine Or.inr ?_
        rw [if_pos rfl, hM, hleafh]
        have he : maxo - (maxo - m) = m := by omega
        rw [he]
      · rw [if_neg hib]
        exact hleaf i hi1 hi2
    · omega
  · have hpre : ∀ n, 1 ≤ n → 2 * n + 1 <
        (s.1.alloc_tree.setD h ((s.1.max_order - ilog2 h : Nat) : Int)).size →
        n ≠ h >>> 1 → cohAt maxo (s.1.alloc_tree.setD h
          ((s.1.max_order - ilog2 h : Nat) : Int)) n := by
      intro n hn hni hnp
      by_cases hnb : n = h
      · refine Or.inr (Or.inl ?_)
        rw [hnb, tval_setD _ _ _ hbt h]
        simp only [if_true]
        rw [hcast]
      · have hch : ¬ (2 * n = h ∨ 2 * n + 1 = h) := by
          rw [child_eq_iff hn]
          exact hnp
        push_neg at hch
        refine cohAt_congr ?_ ?_ ?_ (hcoh n hn (by omega))
        · rw [tval_setD _ _ _ hbt n]
          simp [hnb]
        · rw [tval_setD _ _ _ hbt (2 * n)]
          simp [hch.1]
        · rw [tval_setD _ _ _ hbt (2 * n + 1)]
          simp [hch.2]
    intro n hn hni
    exact up_coh maxo _ h (by omega) hpre n hn (by omega)
  · exact (up_low _ _ hlow1).1
  · have hhi1 : ∀ n, 1 ≤ n → n <
        (s.1.alloc_tree.setD h ((s.1.max_order - ilog2 h : Nat) : Int)).size →
        tval (s.1.alloc_tree.setD h ((s.1.max_order - ilog2 h : Nat) : Int)) n ≤
          (maxo : Int) - (ilog2 n : Int) := by
      intro n hn hnsz
      rw [tval_setD _ _ _ hbt n]
      by_cases hnb : n = h
      · subst hnb
        rw [if_pos rfl, hcast]
      · rw [if_neg hnb]
        exact hhigh n hn (by omega)
    intro n hn hnsz
    exact up_high maxo (maxo - m + 1) _ h hszt1 hh1 (by omega) hhi1 n hn (by omega)
  · intro n hn hnu
    rcases (up_low _ _ hlow1).2 n with hq | hq
    · rw [hq, tval_setD _ _ _ hbt n] at hnu
      by_cases hnb : n = h
      · rw [if_pos hnb] at hnu
        rw [hcast] at hnu
        rw [USED_eq] at hnu
        omega
      · rw [if_neg hnb] at hnu
        exact (List.mem_erase_of_ne hnb).mpr (hused n hn hnu)
    · rw [hnu, USED_eq] at hq
      omega
  · intro x hx
    exact hlive x (List.mem_of_mem_erase hx)

theorem inv_step {m maxo : Nat} {s s' : Buddy × List Nat} (hI : SysInv m maxo s)
    (hs : Step s s') : SysInv m maxo s' := by
  cases hs with
  | alloc len => exact inv_alloc len hI
  | free h hh => exact inv_free h hI hh

theorem inv_reaches {m maxo : Nat} {s s' : Buddy × List Nat} (hI : SysInv m maxo s)
    (hr : Reaches s s') : SysInv m maxo s' := by
  induction hr with
  | refl => exact hI
  | tail h1 h2 ih => exact inv_step ih h2

theorem inv_init {C m : Nat} {b0 : Buddy} (h : Buddy.new C m = some b0) :
    SysInv m (ilog2 (next_power_of_two C)) (b0, []) := by
  obtain ⟨hmin, hml, hsz, hval⟩ := new_spec h
  have hps : (2 : Nat) ^ (ilog2 (next_power_of_two C) - m) * 2 =
      2 ^ (ilog2 (next_power_of_two C) - m + 1) := (pow_succ 2 _).symm
  refine ⟨hmin, hml, hsz, ?_, ?_, ?_, ?_, ?_, ?_, ?_⟩
  · rw [hval 0]
    have h2 : (0 : Nat) < 2 ^ (ilog2 (next_power_of_two C) - m + 1) := Nat.pos_pow_of_pos _ (by norm_num)
    simp [h2]
  · intro i hi1 hi2
    refine Or.inr ?_
    rw [hval i]
    have hi0 : i ≠ 0 := by
      have : (1 : Nat) ≤ 2 ^ (ilog2 (next_power_of_two C) - m) := Nat.one_le_two_pow
      omega
    simp only [hi2, if_true, hi0, if_false]
    have hleafi : ilog2 i = ilog2 (next_power_of_two C) - m := ilog2_eq_of hi1 hi2
    rw [hleafi]
    push_cast [Nat.cast_sub hml]
    ring
  · intro n hn hni
    refine Or.inr (Or.inl ?_)
    rw [hval n]
    have hn0 : n ≠ 0 := by omega
    have hnsz : n < 2 ^ (ilog2 (next_power_of_two C) - m + 1) := by omega
    simp [hnsz, hn0]
  · intro n
    rw [hval n]
    split
    · split
      · rw [USED_eq]
      · rename_i hnsz hn0
        have : ilog2 n ≤ ilog2 (next_power_of_two C) := by
          have h5 : (2 : Nat) ^ (ilog2 (next_power_of_two C) - m + 1) ≤
              2 ^ (ilog2 (next_power_of_two C) + 1) :=
            Nat.pow_le_pow_right (by norm_num) (by omega)
          exact ilog2_le_of_lt_pow (by omega)
        omega
    · omega
  · intro n hn hnsz
    rw [hval n]
    simp only [hnsz, if_true, show n ≠ 0 by omega, if_false]
    exact le_rfl
  · intro n hn hnu
    rw [hval n] at hnu
    split at hnu
    · rw [if_neg (by omega : ¬ n = 0)] at hnu
      rw [USED_eq] at hnu
      have : ilog2 n ≤ ilog2 (next_power_of_two C) := by
        have h5 : (2 : Nat) ^ (ilog2 (next_power_of_two C) - m + 1) ≤
            2 ^ (ilog2 (next_power_of_two C) + 1) :=
          Nat.pow_le_pow_right (by norm_num) (by omega)
        rename_i hnsz
        exact ilog2_le_of_lt_pow (by omega)
      omega
    · rw [USED_eq] at hnu
      omega
  · intro x hx
    exact absurd hx (List.not_mem_nil x)

/-- In a reachable state with no live handles, every node holds exactly its
own order: the tree is pristine. -/
theorem pristine_of_inv {m maxo : Nat} {b : Buddy} (hI : SysInv m maxo (b, [])) :
    ∀ n, 1 ≤ n → n < 2 ^ (maxo - m + 1) →
      tval b.alloc_tree n = (maxo : Int) - (ilog2 n : Int) := by
  obtain ⟨hmin, hml, hsz, h0, hleaf, hcoh, hlow, hhigh, hused, hlive⟩ := hI
  have hnou : ∀ n, 1 ≤ n → tval b.alloc_tree n ≠ USED := by
    intro n hn hc
    exact absurd (hused n hn hc) (List.not_mem_nil n)
  have main : ∀ j, j ≤ maxo - m → ∀ n, 2 ^ (maxo - m - j) ≤ n →
      n < 2 ^ (maxo - m - j) * 2 → tval b.alloc_tree n = (maxo : Int) - (ilog2 n : Int) := by
    intro j
    induction j with
    | zero =>
      intro hj n hn1 hn2
      have hps : (2 : Nat) ^ (maxo - m - 0) * 2 = 2 ^ (maxo - m + 1) := by
        rw [← pow_succ]
        congr 1
      have hn2' : n < 2 ^ (maxo - m + 1) := by omega
      have hn1' : 2 ^ (maxo - m) ≤ n := by
        have : maxo - m - 0 = maxo - m := by omega
        rw [this] at hn1
        exact hn1
      rcases hleaf n hn1' hn2' with hu | hm
      · exact absurd hu (hnou n (by have := Nat.one_le_two_pow (n := maxo - m); omega))
      · rw [hm]
        have hilog : ilog2 n = maxo - m := ilog2_eq_of hn1' (by rw [pow_succ]; omega)
        rw [hilog]
        push_cast [Nat.cast_sub hml]
        ring
    | succ j ih =>
      intro hj n hn1 hn2
      have hjle : j ≤ maxo - m := by omega
      have hsplit : (2 : Nat) ^ (maxo - m - j) = 2 ^ (maxo - m - (j + 1)) * 2 := by
        rw [← pow_succ]
        congr 1
        omega
      have hn0 : 1 ≤ n := by
        have := Nat.one_le_two_pow (n := maxo - m - (j + 1))
        omega
      have hintn : 2 * n + 1 < 2 ^ (maxo - m + 1) := by
        have h1 : (2 : Nat) ^ (maxo - m - (j + 1)) * 2 ≤ 2 ^ (maxo - m) := by
          rw [← pow_succ]
          exact Nat.pow_le_pow_right (by norm_num) (by omega)
        have h2 : (2 : Nat) ^ (maxo - m) * 2 = 2 ^ (maxo - m + 1) := by rw [← pow_succ]
        have h3 : (2 : Nat) ^ (maxo - m - (j + 1)) * 2 * 2 ≤ 2 ^ (maxo - m + 1) := by
          omega
        omega
      have hc1 : tval b.alloc_tree (2 * n) = (maxo : Int) - (ilog2 (2 * n) : Int) := by
        refine ih hjle (2 * n) ?_ ?_ <;> omega
      have hc2 : tval b.alloc_tree (2 * n + 1) = (maxo : Int) - (ilog2 (2 * n + 1) : Int) := by
        refine ih hjle (2 * n + 1) ?_ ?_ <;> omega
      rcases hcoh n hn0 hintn with hf | ho | hu
      · rw [hf, fval, hc1, hc2, ilog2_double hn0, ilog2_double_add_one hn0]
        simp only [if_true, max_self]
        push_cast
        ring
      · exact ho
      · exact absurd hu (hnou n hn0)
  intro n hn1 hn2
  have hilt : ilog2 n ≤ maxo - m := ilog2_le_of_lt_pow hn2
  have hj : maxo - m - (maxo - m - ilog2 n) = ilog2 n := by omega
  refine main (maxo - m - ilog2 n) (by omega) n ?_ ?_
  · rw [hj]
    exact pow_ilog2_le n hn1
  · rw [hj, ← pow_succ]
    exact lt_pow_ilog2 n hn1

theorem validOps_reaches : ∀ (ops : List Op) (s : Buddy × List Nat),
    validOps s ops = true → Reaches s (runOps s ops) := by
  intro ops
  induction ops with
  | nil =>
    intro s h
    exact Relation.ReflTransGen.refl
  | cons op ops ih =>
    intro s h
    cases op with
    | alloc len =>
      rw [validOps] at h
      exact Relation.ReflTransGen.head (Step.alloc s len) (ih _ h)
    | free hh =>
      rw [validOps] at h
      simp only [Bool.and_eq_true] at h
      have hmem : hh ∈ s.2 := by simpa using h.1
      exact Relation.ReflTransGen.head (Step.free s hh hmem) (ih _ h.2)

/-! ### Concrete states used by witnesses and counterexamples -/

/-- The fresh capacity-8, min_order-0 allocator of the spec's scenario. -/
def fresh8 : Buddy := (Buddy.new 8 0).getD ⟨0, #[]⟩

/-- A fresh capacity-2, min_order-0 allocator. -/
def fresh2 : Buddy := (Buddy.new 2 0).getD ⟨0, #[]⟩

/-- Five unit allocations (handles 8, 9, 10, 11, 12), then freeing 9, 10, 11:
a perfectly legal request sequence leaving handles 8 and 12 live. -/
def overlapOps : List Op :=
  [.alloc 1, .alloc 1, .alloc 1, .alloc 1, .alloc 1, .free 9, .free 10, .free 11]

/-- A legal request sequence after which node 3 holds the value 2 although all
four leaves 12..15 below it hold `USED`. -/
def sentinelOps : List Op :=
  [.alloc 1, .alloc 1, .alloc 1, .alloc 1, .alloc 1, .free 9, .free 10, .free 11,
   .alloc 4, .free 12, .alloc 4, .free 3, .alloc 1, .alloc 1, .alloc 1,
   .alloc 1, .alloc 1, .alloc 1, .alloc 1, .free 3]

/-! ### C1 -/

/-- C1: for any sequence of alloc and free requests in which every handle
returned by alloc is freed exactly once, in any order — that is, any reachable
state whose live-handle list is empty again — the allocator's tree is
element-wise equal, as checked by `check_is_same`, to the tree of the freshly
constructed allocator with the same capacity and min_order. -/
theorem C1_full_cycle_restores {C m : Nat} {b0 bE : Buddy}
    (h0 : Buddy.new C m = some b0) (hr : Reaches (b0, []) (bE, [])) :
    bE.check_is_same b0 = true := by
  have hIE := inv_reaches (inv_init h0) hr
  obtain ⟨hmin0, hml, hsz0, hval0⟩ := new_spec h0
  have hszE : bE.alloc_tree.size = 2 ^ (ilog2 (next_power_of_two C) - m + 1) := hIE.hsz
  rw [Buddy.check_is_same, List.all_eq_true]
  intro i hi
  have hilt : i < bE.alloc_tree.size := List.mem_range.mp hi
  rw [beq_iff_eq]
  show tval bE.alloc_tree i = tval b0.alloc_tree i
  have hiC : i < 2 ^ (ilog2 (next_power_of_two C) - m + 1) := by omega
  rcases Nat.eq_zero_or_pos i with rfl | hpos
  · rw [hIE.h0, hval0 0]
    simp only [hiC, if_true, if_pos rfl]
  · rw [pristine_of_inv hIE i hpos hiC, hval0 i]
    simp only [hiC, if_true, show i ≠ 0 by omega, if_false]

theorem C1_witness :
    ((runOps (fresh8, []) [.alloc 1, .free 8]).1).check_is_same fresh8 = true := by
  have h0 : Buddy.new 8 0 = some fresh8 := by decide
  have hr := validOps_reaches [.alloc 1, .free 8] (fresh8, []) (by decide)
  have hrun : runOps (fresh8, []) [.alloc 1, .free 8] =
      ((runOps (fresh8, []) [.alloc 1, .free 8]).1, []) := by decide
  rw [hrun] at hr
  exact C1_full_cycle_restores h0 hr

/-! ### C2 -/

/-- C2 counterexample: from a fresh capacity-2, min_order-0 allocator, the
single request alloc(2) reaches a state in which internal node 1 (children 2
and 3 exist) stores `USED` = −128, while the claimed formula
max(value(2), value(3)) + (1 if equal) gives 1: the claim fails as stated. -/
theorem C2_counterexample :
    Reaches (fresh2, []) (runOps (fresh2, []) [.alloc 2]) ∧
    2 * 1 + 1 < (runOps (fresh2, []) [.alloc 2]).1.alloc_tree.size ∧
    tval (runOps (fresh2, []) [.alloc 2]).1.alloc_tree 1 ≠
      fval (runOps (fresh2, []) [.alloc 2]).1.alloc_tree 1 := by
  refine ⟨validOps_reaches _ _ (by decide), by decide, by decide⟩

/-- C2 (amended): in every state reachable from a freshly constructed
allocator by alloc and free requests, every internal node i satisfies
value(i) = max(value(2i), value(2i+1)) + (1 if value(2i) = value(2i+1) else 0),
or stores the USED sentinel, or stores exactly its own order
max_order − floor(log2 i). -/
theorem C2_amended {C m : Nat} {b0 : Buddy} {s : Buddy × List Nat}
    (h0 : Buddy.new C m = some b0) (hr : Reaches (b0, []) s) :
    ∀ n, 1 ≤ n → 2 * n + 1 < s.1.alloc_tree.size →
      tval s.1.alloc_tree n = fval s.1.alloc_tree n ∨
      tval s.1.alloc_tree n = (s.1.max_order : Int) - (ilog2 n : Int) ∨
      tval s.1.alloc_tree n = USED := by
  have hI := inv_reaches (inv_init h0) hr
  intro n hn hni
  have hM : s.1.max_order = ilog2 (next_power_of_two C) :=
    (max_order_of_size hI.hmin hI.hsz hI.hml).2
  rw [hM]
  refine hI.hcoh n hn ?_
  have := hI.hsz
  omega

theorem C2_amended_witness :
    tval (runOps (fresh2, []) [.alloc 2]).1.alloc_tree 1 =
      fval (runOps (fresh2, []) [.alloc 2]).1.alloc_tree 1 ∨
    tval (runOps (fresh2, []) [.alloc 2]).1.alloc_tree 1 =
      ((runOps (fresh2, []) [.alloc 2]).1.max_order : Int) - (ilog2 1 : Int) ∨
    tval (runOps (fresh2, []) [.alloc 2]).1.alloc_tree 1 = USED := by
  have h0 : Buddy.new 2 0 = some fresh2 := by decide
  exact C2_amended h0 (validOps_reaches [.alloc 2] (fresh2, []) (by decide)) 1
    (by decide) (by decide)

/-! ### C3 -/

/-- C3: `Buddy::write` passes `(block - bias) << order` — an element-count,
never multiplied by the stride — as the byte offset of `write_buffer`.  For
the spec's scenario (capacity 8, min_order 0, stride 8 bytes) and the handle
at node 3 (depth 1, sibling index k = 1, order 2), the code's byte offset is
4 = k·2^order while the claim requires k·2^order·stride = 32. -/
theorem C3_offset_missing_stride :
    fresh8.write 3 = 4 ∧ fresh8.block_len 3 = 4 ∧ (4 : Nat) ≠ 1 * 2 ^ 2 * 8 := by
  refine ⟨by decide, by decide, by decide⟩

/-! ### C5 -/

/-- C5: alloc(len) returns an empty result iff the root's stored value is
smaller than target_order = max(log2(next_power_of_two len), min_order); on
that failure the allocator is left completely unchanged; and whenever the
early exit is not taken, wrapping the reached index into a handle never fails
(a `some` handle is always produced). -/
theorem C5_alloc_none_iff (b : Buddy) (len : Nat) :
    ((b.alloc len).1 = none ↔ tval b.alloc_tree 1 < (target_order b len : Int)) ∧
    ((b.alloc len).1 = none → (b.alloc len).2 = b) ∧
    (¬ tval b.alloc_tree 1 < (target_order b len : Int) →
      ∃ hdl, (b.alloc len).1 = some hdl) := by
  by_cases h : tval b.alloc_tree 1 < (target_order b len : Int)
  · rw [alloc_fail h]
    simp [h]
  · rw [alloc_succ h]
    simp [h]

theorem C5_witness :
    ((fresh8.alloc 16).1 = none ↔ tval fresh8.alloc_tree 1 < (target_order fresh8 16 : Int)) ∧
    ((fresh8.alloc 16).1 = none → (fresh8.alloc 16).2 = fresh8) ∧
    (¬ tval fresh8.alloc_tree 1 < (target_order fresh8 16 : Int) →
      ∃ hdl, (fresh8.alloc 16).1 = some hdl) :=
  C5_alloc_none_iff fresh8 16

/-! ### C7 -/

/-- C7: the valid request sequence `overlapOps ++ [alloc 4]` (every free frees
a live handle) reaches a state in which handles 3 and 12 are BOTH live, yet
they do not address disjoint ranges: the code computes the same write offset 4
for both, with handle 3 spanning 4 elements and handle 12 one element.  The
claimed disjointness of simultaneously live handles fails. -/
theorem C7_live_handles_overlap :
    Reaches (fresh8, []) (runOps (fresh8, []) (overlapOps ++ [.alloc 4])) ∧
    3 ∈ (runOps (fresh8, []) (overlapOps ++ [.alloc 4])).2 ∧
    12 ∈ (runOps (fresh8, []) (overlapOps ++ [.alloc 4])).2 ∧
    (3 : Nat) ≠ 12 ∧
    (runOps (fresh8, []) (overlapOps ++ [.alloc 4])).1.write 3 =
      (runOps (fresh8, []) (overlapOps ++ [.alloc 4])).1.write 12 ∧
    (runOps (fresh8, []) (overlapOps ++ [.alloc 4])).1.write 3 = 4 ∧
    (runOps (fresh8, []) (overlapOps ++ [.alloc 4])).1.block_len 3 = 4 ∧
    (runOps (fresh8, []) (overlapOps ++ [.alloc 4])).1.block_len 12 = 1 := by
  refine ⟨validOps_reaches _ _ (by decide), by decide, by decide, by decide,
    by decide, by decide, by decide, by decide⟩

/-! ### C8 -/

/-- C8: if min_order exceeds max_order = log2 of the capacity rounded up to a
power of two, construction fails (in Rust, by a panic before any `Buddy` value
exists; in the embedding, `new` returns `none`), so no allocator is ever
handed to the caller. -/
theorem C8_degenerate_construction {C m : Nat}
    (h : ilog2 (next_power_of_two C) < m) : Buddy.new C m = none := by
  rw [Buddy.new]
  simp only [show ¬ m ≤ ilog2 (next_power_of_two C) by omega, if_false]

theorem C8_witness : Buddy.new 8 4 = none :=
  C8_degenerate_construction (by decide)

/-! ### C9 -/

/-- C9: alloc(0) is not a special failure: on every allocator state it behaves
exactly like alloc(1) (the length 0 is rounded up to 1, so the target order is
min_order), and on a freshly constructed allocator it succeeds. -/
theorem C9_alloc_zero {C m : Nat} {b0 : Buddy} (h : Buddy.new C m = some b0) :
    (∀ b : Buddy, b.alloc 0 = b.alloc 1) ∧ (b0.alloc 0).1.isSome = true := by
  have hz : ∀ b : Buddy, b.alloc 0 = b.alloc 1 := fun b => rfl
  refine ⟨hz, ?_⟩
  obtain ⟨hmin, hml, hsz, hval⟩ := new_spec h
  have htgt : target_order b0 0 = m := by
    rw [target_order, hmin]
    have : ilog2 (next_power_of_two 0) = 0 := by decide
    rw [this]
    omega
  have hroot : tval b0.alloc_tree 1 = (ilog2 (next_power_of_two C) : Int) := by
    rw [hval 1]
    have h1 : (1 : Nat) < 2 ^ (ilog2 (next_power_of_two C) - m + 1) := by
      have : (2 : Nat) ≤ 2 ^ (ilog2 (next_power_of_two C) - m + 1) := by
        have := Nat.one_le_two_pow (n := ilog2 (next_power_of_two C) - m)
        rw [pow_succ]
        omega
      omega
    simp [h1, ilog2_one]
  have hnl : ¬ tval b0.alloc_tree 1 < (target_order b0 0 : Int) := by
    rw [hroot, htgt]
    have : (m : Int) ≤ (ilog2 (next_power_of_two C) : Int) := by exact_mod_cast hml
    omega
  rw [alloc_succ hnl]
  rfl

theorem C9_witness :
    fresh8.alloc 0 = fresh8.alloc 1 ∧ (fresh8.alloc 0).1.isSome = true :=
  ⟨(C9_alloc_zero (by decide : Buddy.new 8 0 = some fresh8)).1 fresh8,
   (C9_alloc_zero (by decide : Buddy.new 8 0 = some fresh8)).2⟩

/-! ### C10 -/

/-- C10 counterexample: the valid request sequence `sentinelOps` reaches a
state in which every leaf 12..15 below node 3 holds `USED` (the subtree is
fully used), yet node 3 stores the non-negative value 2 — the claimed
negativity of values above fully used subtrees fails as stated. -/
theorem C10_counterexample :
    Reaches (fresh8, []) (runOps (fresh8, []) sentinelOps) ∧
    tval (runOps (fresh8, []) sentinelOps).1.alloc_tree 12 = USED ∧
    tval (runOps (fresh8, []) sentinelOps).1.alloc_tree 13 = USED ∧
    tval (runOps (fresh8, []) sentinelOps).1.alloc_tree 14 = USED ∧
    tval (runOps (fresh8, []) sentinelOps).1.alloc_tree 15 = USED ∧
    tval (runOps (fresh8, []) sentinelOps).1.alloc_tree 3 = 2 ∧
    ¬ tval (runOps (fresh8, []) sentinelOps).1.alloc_tree 3 < 0 := by
  refine ⟨validOps_reaches _ _ (by decide), by decide, by decide, by decide,
    by decide, by decide, by decide⟩

/-- C10 (amended): in every state reachable from a freshly constructed
allocator by alloc and free requests, every tree node i ≥ 1 stores a value
between −128 and its own order max_order − floor(log2 i); in particular the
USED sentinel −128 is negative and smaller than every valid order value. -/
theorem C10_amended {C m : Nat} {b0 : Buddy} {s : Buddy × List Nat}
    (h0 : Buddy.new C m = some b0) (hr : Reaches (b0, []) s) :
    ∀ n, 1 ≤ n → n < s.1.alloc_tree.size →
      -128 ≤ tval s.1.alloc_tree n ∧
      tval s.1.alloc_tree n ≤ (s.1.max_order : Int) - (ilog2 n : Int) := by
  have hI := inv_reaches (inv_init h0) hr
  intro n hn hns
  have hM : s.1.max_order = ilog2 (next_power_of_two C) :=
    (max_order_of_size hI.hmin hI.hsz hI.hml).2
  rw [hM]
  refine ⟨hI.hlow n, hI.hhigh n hn ?_⟩
  have := hI.hsz
  omega

theorem C10_amended_witness :
    -128 ≤ tval (runOps (fresh8, []) sentinelOps).1.alloc_tree 3 ∧
    tval (runOps (fresh8, []) sentinelOps).1.alloc_tree 3 ≤
      ((runOps (fresh8, []) sentinelOps).1.max_order : Int) - (ilog2 3 : Int) := by
  have h0 : Buddy.new 8 0 = some fresh8 := by decide
  exact C10_amended h0 (validOps_reaches sentinelOps (fresh8, []) (by decide)) 3
    (by decide) (by decide)

/-! ### C4 -/

/-- C4 counterexample: in the reachable state after `overlapOps`, alloc(4)
(target order 2) succeeds and returns node 3, but the descent's single step
moved to child 3 whose stored value is 1 < 2: the claim that each step moves
to a child whose value is ≥ target_order fails as stated. -/
theorem C4_counterexample :
    Reaches (fresh8, []) (runOps (fresh8, []) overlapOps) ∧
    target_order (runOps (fresh8, []) overlapOps).1 4 = 2 ∧
    ((runOps (fresh8, []) overlapOps).1.alloc 4).1 = some 3 ∧
    tval (runOps (fresh8, []) overlapOps).1.alloc_tree 3 = 1 ∧
    ¬ ((2 : Int) ≤ 1) := by
  refine ⟨validOps_reaches _ _ (by decide), by decide, by decide, by decide, by decide⟩

/-- C4 (amended): the descent takes exactly (max_order − target_order) steps —
starting from the root, the reached block sits exactly that many levels down;
at each step it examines only the lower-indexed (even) child and moves to it
iff that child's value is ≥ target_order, moving to the higher-indexed child
otherwise without examining it (in particular, when both children qualify, the
lower-indexed child is chosen); and in the capacity-8/min_order-0 scenario,
after alloc(1) (handle 8, offset 0) and alloc(2), freeing the first allocation
and re-allocating 1 element returns handle 8, addressing offset 0 again. -/
theorem C4_amended :
    (∀ (t : Array Int) (tgt : Int) (l : Nat), ilog2 (descend t tgt l 1) = l) ∧
    (∀ (t : Array Int) (tgt : Int) (l blk : Nat),
      descend t tgt (l + 1) blk =
        descend t tgt l (if tgt ≤ tval t (2 * blk) then 2 * blk else 2 * blk + 1)) ∧
    (((runOps (fresh8, []) [.alloc 1, .alloc 2, .free 8]).1.alloc 1).1 = some 8 ∧
     (runOps (fresh8, []) [.alloc 1, .alloc 2, .free 8, .alloc 1]).1.write 8 = 0) := by
  refine ⟨?_, ?_, by decide, by decide⟩
  · intro t tgt l
    have h := descend_range t tgt l 1
    refine ilog2_eq_of (by omega) ?_
    rw [pow_succ]
    omega
  · intro t tgt l blk
    simp only [descend, shiftLeft_one]
    by_cases hs : tgt ≤ tval t (2 * blk)
    · simp only [hs, if_true, Nat.xor_zero]
    · simp only [hs, if_false]
      rw [xor_one_of_even (by omega)]

theorem C4_amended_witness :
    ilog2 (descend fresh8.alloc_tree 2 1 1) = 1 ∧
    descend fresh8.alloc_tree 0 (2 + 1) 1 =
      descend fresh8.alloc_tree 0 2
        (if (0 : Int) ≤ tval fresh8.alloc_tree (2 * 1) then 2 * 1 else 2 * 1 + 1) :=
  ⟨C4_amended.1 fresh8.alloc_tree 2 1, C4_amended.2.1 fresh8.alloc_tree 0 2 1⟩

/-! ### C6: exact characterization of repeated minimum-order allocations

After `k` allocations of a minimum-order block from a fresh allocator, the
used leaves are exactly the leftmost `k` ones.  `g m h u` is the value stored
at a node of height `h` (levels above the leaves) whose subtree of `2 ^ h`
leaves has its leftmost `u` leaves used; `TkArr m L k` is the whole tree in
that state. -/

def g (m : Nat) : Nat → Nat → Int
  | 0, u => if u = 0 then (m : Int) else USED
  | h + 1, u =>
    if u = 0 then ((m + (h + 1) : Nat) : Int)
    else if u = 2 ^ (h + 1) then USED + ((h + 1 : Nat) : Int)
    else if u ≤ 2 ^ h then ((m + h : Nat) : Int)
    else g m h (u - 2 ^ h)

/-- The number of used leaves below node `n` when the leftmost `k` leaves of
the whole tree are used: the clamp of `k - first_leaf_index(n)` to
`[0, 2 ^ height(n)]`. -/
def usedUnder (L k n : Nat) : Nat :=
  min (2 ^ (L - ilog2 n)) (k - (n - 2 ^ ilog2 n) * 2 ^ (L - ilog2 n))

/-- The tree after `k` minimum-order allocations from a fresh allocator with
`max_order - min_order = L`. -/
def TkArr (m L k : Nat) : Array Int :=
  (Array.range (2 ^ (L + 1))).map fun n =>
    if n = 0 then USED else g m (L - ilog2 n) (usedUnder L k n)

theorem g_zero (m h : Nat) : g m h 0 = ((m + h : Nat) : Int) := by
  cases h with
  | zero => simp [g]
  | succ h => simp [g]

theorem g_full (m h : Nat) : g m h (2 ^ h) = USED + (h : Nat) := by
  cases h with
  | zero => simp [g]
  | succ h =>
    rw [g]
    have h1 : (2 : Nat) ^ (h + 1) ≠ 0 := by positivity
    simp [h1]

theorem g_nonfull_ge (m : Nat) : ∀ h u, u < 2 ^ h → (m : Int) ≤ g m h u := by
  intro h
  induction h with
  | zero =>
    intro u hu
    interval_cases u
    simp [g]
  | succ h ih =>
    intro u hu
    rw [g]
    by_cases h0 : u = 0
    · simp only [h0, if_true]
      push_cast
      omega
    · have hne : u ≠ 2 ^ (h + 1) := by omega
      simp only [h0, hne, if_false]
      by_cases hle : u ≤ 2 ^ h
      · simp only [hle, if_true]
        push_cast
        omega
      · simp only [hle, if_false]
        refine ih (u - 2 ^ h) ?_
        have : (2 : Nat) ^ (h + 1) = 2 ^ h * 2 := pow_succ 2 h
        omega

theorem g_mixed_le (m : Nat) : ∀ h u, 0 < u → u < 2 ^ h →
    g m h u ≤ (m : Int) + (h : Int) - 1 := by
  intro h
  induction h with
  | zero =>
    intro u hu1 hu2
    omega
  | succ h ih =>
    intro u hu1 hu2
    rw [g]
    have h0 : u ≠ 0 := by omega
    have hne : u ≠ 2 ^ (h + 1) := by omega
    simp only [h0, hne, if_false]
    by_cases hle : u ≤ 2 ^ h
    · simp only [hle, if_true]
      push_cast
      omega
    · simp only [hle, if_false]
      have hp : (2 : Nat) ^ (h + 1) = 2 ^ h * 2 := pow_succ 2 h
      have := ih (u - 2 ^ h) (by omega) (by omega)
      push_cast at this ⊢
      omega

/-- The invariant formula, evaluated on the closed-form values: a node of
height `h + 1` with `u` used leaves recomputes to exactly `g m (h+1) u` from
its children's values. -/
theorem g_formula (m h u : Nat) (hh : h < 128) (hu : u ≤ 2 ^ (h + 1)) :
    g m (h + 1) u =
      max (g m h (min (2 ^ h) u)) (g m h (u - 2 ^ h)) +
        (if g m h (min (2 ^ h) u) = g m h (u - 2 ^ h) then 1 else 0) := by
  have hp : (2 : Nat) ^ (h + 1) = 2 ^ h * 2 := pow_succ 2 h
  have hpos : (1 : Nat) ≤ 2 ^ h := Nat.one_le_two_pow
  by_cases h0 : u = 0
  · subst h0
    have e1 : min (2 ^ h) 0 = 0 := by omega
    have e2 : (0 : Nat) - 2 ^ h = 0 := by omega
    rw [e1, e2, g_zero, g_zero, max_self]
    simp only [if_pos rfl]
    push_cast
    ring
  · by_cases hfull : u = 2 ^ (h + 1)
    · subst hfull
      have e1 : min (2 ^ h) (2 ^ (h + 1)) = 2 ^ h := by omega
      have e2 : (2 : Nat) ^ (h + 1) - 2 ^ h = 2 ^ h := by omega
      rw [e1, e2, g_full, g_full, max_self]
      simp only [if_pos rfl]
      push_cast
      ring
    · by_cases hle : u ≤ 2 ^ h
      · have e1 : min (2 ^ h) u = u := by omega
        have e2 : u - 2 ^ h = 0 := by omega
        rw [e1, e2, g_zero, g]
        simp only [h0, hfull, if_false, hle, if_true]
        by_cases hlt : u < 2 ^ h
        · have hA := g_mixed_le m h u (by omega) hlt
          have hB : g m h u ≠ ((m + h : Nat) : Int) := by
            push_cast at hA ⊢
            omega
          rw [max_eq_right (by push_cast at hA ⊢; omega), if_neg hB]
          push_cast
          ring
        · have he : u = 2 ^ h := by omega
          subst he
          rw [g_full]
          have hB : USED + ((h : Nat) : Int) ≠ ((m + h : Nat) : Int) := by
            rw [USED_eq]
            push_cast
            omega
          rw [max_eq_right (by rw [USED_eq]; push_cast; omega), if_neg hB]
          push_cast
          ring
      · have e1 : min (2 ^ h) u = 2 ^ h := by omega
        have e2 : 0 < u - 2 ^ h := by omega
        have e3 : u - 2 ^ h < 2 ^ h := by omega
        rw [e1, g_full, g]
        simp only [h0, hfull, if_false, hle, if_false]
        have hA := g_nonfull_ge m h (u - 2 ^ h) e3
        have hlt : USED + ((h : Nat) : Int) < g m h (u - 2 ^ h) := by
          rw [USED_eq]
          push_cast at hA ⊢
          omega
        rw [max_eq_right (le_of_lt hlt), if_neg (by omega)]
        omega

theorem tval_Tk (m L k n : Nat) :
    tval (TkArr m L k) n =
      if n < 2 ^ (L + 1) then
        (if n = 0 then USED else g m (L - ilog2 n) (usedUnder L k n))
      else 0 := by
  rw [TkArr, tval_mk]

theorem size_Tk (m L k : Nat) : (TkArr m L k).size = 2 ^ (L + 1) := by
  rw [TkArr, Array.size_map, Array.size_range]

/-- The used-leaf counts of the two children of an internal node. -/
theorem usedUnder_children {L n : Nat} (k : Nat) (hn : 1 ≤ n) (hd : ilog2 n < L) :
    usedUnder L k (2 * n) = min (2 ^ (L - ilog2 n - 1)) (usedUnder L k n) ∧
    usedUnder L k (2 * n + 1) = usedUnder L k n - 2 ^ (L - ilog2 n - 1) := by
  have hdld : ilog2 (2 * n) = ilog2 n + 1 := ilog2_double hn
  have hdld1 : ilog2 (2 * n + 1) = ilog2 n + 1 := ilog2_double_add_one hn
  have hP : 2 ^ ilog2 n ≤ n := pow_ilog2_le n hn
  have hP1 : (2 : Nat) ^ (ilog2 n + 1) = 2 * 2 ^ ilog2 n := by rw [pow_succ]; ring
  have hA : (2 : Nat) ^ (L - ilog2 n) = 2 ^ (L - ilog2 n - 1) * 2 := by
    rw [← pow_succ]
    congr 1
    omega
  have hE : L - (ilog2 n + 1) = L - ilog2 n - 1 := by omega
  have hsub : 2 * n - 2 ^ (ilog2 n + 1) = 2 * (n - 2 ^ ilog2 n) := by omega
  have hsub1 : 2 * n + 1 - 2 ^ (ilog2 n + 1) = 2 * (n - 2 ^ ilog2 n) + 1 := by omega
  constructor
  · rw [usedUnder, usedUnder, hdld, hE, hsub]
    have hmul : 2 * (n - 2 ^ ilog2 n) * 2 ^ (L - ilog2 n - 1) =
        (n - 2 ^ ilog2 n) * 2 ^ (L - ilog2 n) := by
      rw [hA]
      ring
    rw [hmul]
    omega
  · rw [usedUnder, usedUnder, hdld1, hE, hsub1]
    have hmul : (2 * (n - 2 ^ ilog2 n) + 1) * 2 ^ (L - ilog2 n - 1) =
        (n - 2 ^ ilog2 n) * 2 ^ (L - ilog2 n) + 2 ^ (L - ilog2 n - 1) := by
      rw [hA]
      ring
    rw [hmul]
    omega

/-- Internal nodes of `TkArr` always satisfy the recomputation formula. -/
theorem Tk_coh {m L k : Nat} (hL : L < 128) (hk : k ≤ 2 ^ L) :
    ∀ n, 1 ≤ n → 2 * n + 1 < 2 ^ (L + 1) →
      tval (TkArr m L k) n = fval (TkArr m L k) n := by
  intro n hn hni
  have hps : (2 : Nat) ^ (L + 1) = 2 ^ L * 2 := pow_succ 2 L
  have hnL : n < 2 ^ L := by omega
  have hd : ilog2 n < L := by
    rcases Nat.eq_zero_or_pos L with h0 | hpos
    · subst h0
      have h1 : (2 : Nat) ^ 0 = 1 := rfl
      omega
    · obtain ⟨L', rfl⟩ : ∃ L', L = L' + 1 := ⟨L - 1, by omega⟩
      have := ilog2_le_of_lt_pow (x := n) (j := L') hnL
      omega
  obtain ⟨hc1, hc2⟩ := usedUnder_children (L := L) k hn hd
  have hh : L - ilog2 n = (L - ilog2 n - 1) + 1 := by omega
  have huk : usedUnder L k n ≤ 2 ^ (L - ilog2 n) := min_le_left _ _
  rw [fval, tval_Tk, tval_Tk, tval_Tk]
  simp only [show n < 2 ^ (L + 1) by omega, if_true, show 2 * n < 2 ^ (L + 1) by omega,
    show 2 * n + 1 < 2 ^ (L + 1) from hni, show n ≠ 0 by omega,
    show 2 * n ≠ 0 by omega, show 2 * n + 1 ≠ 0 by omega, if_false]
  rw [ilog2_double hn, ilog2_double_add_one hn]
  have hE : L - (ilog2 n + 1) = L - ilog2 n - 1 := by omega
  rw [hE, hc1, hc2]
  rw [hh] at huk ⊢
  exact g_formula m (L - ilog2 n - 1) (usedUnder L k n) (by omega) huk

theorem shiftRight_le_half {b j : Nat} (hj : 1 ≤ j) : b >>> j ≤ b / 2 := by
  rw [Nat.shiftRight_eq_div_pow]
  refine Nat.div_le_div_left ?_ (by norm_num)
  have h := Nat.pow_le_pow_right (by norm_num : 1 ≤ 2) hj
  simpa using h

theorem anc_double (b j : Nat) :
    2 * (b >>> (j + 1)) ≤ b >>> j ∧ b >>> j < 2 * (b >>> (j + 1)) + 2 := by
  have h : b >>> (j + 1) = (b >>> j) >>> 1 := Nat.shiftRight_add b j 1
  rw [h, shiftRight_one]
  omega

theorem anc_mul_le {b j j' : Nat} (h : j' ≤ j) : (b >>> j) * 2 ^ (j - j') ≤ b >>> j' := by
  have he : b >>> j = (b >>> j') >>> (j - j') := by
    rw [← Nat.shiftRight_add]
    congr 1
    omega
  rw [he, Nat.shiftRight_eq_div_pow]
  exact Nat.div_mul_le_self _ _

theorem anc_ne {b j1 j2 : Nat} (h12 : j1 < j2) (hq : 1 ≤ b >>> j2) : b >>> j2 ≠ b >>> j1 := by
  have h1 := anc_mul_le (b := b) (le_of_lt h12)
  have h2 : (2 : Nat) ≤ 2 ^ (j2 - j1) := by
    have := Nat.pow_le_pow_right (by norm_num : 1 ≤ 2) (by omega : 1 ≤ j2 - j1)
    simpa using this
  have h3 : b >>> j2 * 2 ≤ b >>> j2 * 2 ^ (j2 - j1) := Nat.mul_le_mul_left _ h2
  omega

/-- The buddy of an ancestor of `b` is itself never an ancestor of `b`. -/
theorem sib_not_anc {b c j : Nat} (hc : c = b >>> j) (hc2 : 2 ≤ c) :
    ∀ j', 1 ≤ j' → b >>> j' ≠ c ^^^ 1 := by
  intro j' hj'
  have hpar : c % 2 = 0 ∨ c % 2 = 1 := by omega
  rcases Nat.lt_trichotomy j' j with h | h | h
  · have h1 : c * 2 ^ (j - j') ≤ b >>> j' := by
      rw [hc]
      exact anc_mul_le (by omega)
    have h2 : (2 : Nat) ≤ 2 ^ (j - j') := by
      have := Nat.pow_le_pow_right (by norm_num : 1 ≤ 2) (by omega : 1 ≤ j - j')
      simpa using this
    have h3 : c * 2 ≤ c * 2 ^ (j - j') := Nat.mul_le_mul_left _ h2
    rcases hpar with hp | hp
    · rw [xor_one_of_even hp]
      omega
    · rw [xor_one_of_odd hp]
      omega
  · subst h
    rw [← hc]
    rcases hpar with hp | hp
    · rw [xor_one_of_even hp]
      omega
    · rw [xor_one_of_odd hp]
      omega
  · have h1 : b >>> j' ≤ c / 2 := by
      have he : b >>> j' = c >>> (j' - j) := by
        rw [hc, ← Nat.shiftRight_add]
        congr 1
        omega
      rw [he]
      exact shiftRight_le_half (by omega)
    rcases hpar with hp | hp
    · rw [xor_one_of_even hp]
      omega
    · rw [xor_one_of_odd hp]
      omega

theorem fval_eq_of_children_eq {ta tb : Array Int} {c q : Nat} (hc : 1 < c)
    (hq : c >>> 1 = q) (h1 : tval ta c = tval tb c)
    (h2 : tval ta (c ^^^ 1) = tval tb (c ^^^ 1)) : fval ta q = fval tb q := by
  subst hq
  rw [fval, fval]
  rcases buddy_pair hc with ⟨e1, e2⟩ | ⟨e1, e2⟩
  · rw [← e2, ← e1, h1, h2]
  · rw [← e1, ← e2, h1, h2]

/-- When the target array `t2` is formula-coherent along the strict ancestors
of `block`, the source is coherent strictly above the parent, and the two
arrays agree off the strict ancestors, `update_parents` transforms the source
exactly into `t2`: the early break can only stop where all values above
already agree. -/
theorem up_exact (t2 : Array Int) : ∀ (b : Nat) (t : Array Int),
    t2.size = t.size → 1 ≤ b → b < t.size →
    (∀ i, ¬ (1 ≤ i ∧ ∃ j, 1 ≤ j ∧ i = b >>> j) → tval t i = tval t2 i) →
    (∀ j, 2 ≤ j → 1 ≤ b >>> j → tval t (b >>> j) = fval t (b >>> j)) →
    (∀ j, 1 ≤ j → 1 ≤ b >>> j → tval t2 (b >>> j) = fval t2 (b >>> j)) →
    update_parents t b = t2 := by
  intro b
  induction b using Nat.strong_induction_on with
  | _ b ih =>
    intro t hsz2 hb1 hb2 hagree hcohT hcohT2
    by_cases hb : 1 < b
    · have hp1 : 1 ≤ b >>> 1 := parent_pos hb
      have hplt : b >>> 1 < b := parent_lt hb
      have hpsz : b >>> 1 < t.size := by omega
      have hbna : ¬ (1 ≤ b ∧ ∃ j, 1 ≤ j ∧ b = b >>> j) := by
        rintro ⟨h1, j, hj, he⟩
        have h2 := shiftRight_le_half (b := b) hj
        omega
      have hsibna : ¬ (1 ≤ b ^^^ 1 ∧ ∃ j, 1 ≤ j ∧ b ^^^ 1 = b >>> j) := by
        rintro ⟨h1, j, hj, he⟩
        exact sib_not_anc (c := b) Nat.shiftRight_zero.symm (by omega) j hj he.symm
      have heqb : tval t b = tval t2 b := hagree b hbna
      have heqsib : tval t (b ^^^ 1) = tval t2 (b ^^^ 1) := hagree _ hsibna
      have hfv : fval t (b >>> 1) = fval t2 (b >>> 1) :=
        fval_eq_of_children_eq hb rfl heqb heqsib
      have hnew : fstep t b = tval t2 (b >>> 1) := by
        rw [fstep_eq_fval t hb, hfv]
        exact (hcohT2 1 le_rfl hp1).symm
      have ht'p : tval (t.setD (b >>> 1) (fstep t b)) (b >>> 1) = tval t2 (b >>> 1) := by
        rw [tval_setD _ _ _ hpsz]
        simp only [if_pos rfl]
        exact hnew
      have ht'o : ∀ x, x ≠ b >>> 1 → tval (t.setD (b >>> 1) (fstep t b)) x = tval t x := by
        intro x hx
        rw [tval_setD _ _ _ hpsz]
        simp [hx]
      have hancb : ∀ j, 1 ≤ j → b >>> j = b >>> 1 ∨
          ∃ j', 1 ≤ j' ∧ b >>> j = (b >>> 1) >>> j' := by
        intro j hj
        cases j with
        | zero => omega
        | succ j =>
          rcases Nat.eq_zero_or_pos j with h0 | hp
          · subst h0
            exact Or.inl rfl
          · refine Or.inr ⟨j, hp, ?_⟩
            rw [← Nat.shiftRight_add]
            congr 1
            omega
      have hagree' : ∀ i, ¬ (1 ≤ i ∧ ∃ j, 1 ≤ j ∧ i = (b >>> 1) >>> j) →
          tval (t.setD (b >>> 1) (fstep t b)) i = tval t2 i := by
        intro i hi
        by_cases hip : i = b >>> 1
        · subst hip
          exact ht'p
        · rw [ht'o i hip]
          refine hagree i ?_
          rintro ⟨h1, j, hj, rfl⟩
          rcases hancb j hj with he | ⟨j', hj', he⟩
          · exact hip he
          · exact hi ⟨h1, j', hj', he⟩
      rw [update_parents_step t hb]
      split
      · rename_i hbreak
        have hclimb : ∀ j, 1 ≤ j → 1 ≤ b >>> j →
            tval t (b >>> j) = tval t2 (b >>> j) := by
          intro j
          induction j with
          | zero => intro h1 h2; exact absurd h1 (by norm_num)
          | succ j ihc =>
            intro hj1 hq1
            rcases Nat.eq_zero_or_pos j with h0 | hjpos
            · subst h0
              show tval t (b >>> 1) = tval t2 (b >>> 1)
              rw [hbreak]
              exact hnew
            · have hdbl := anc_double b j
              have hc2 : 2 ≤ b >>> j := by omega
              have hcih : tval t (b >>> j) = tval t2 (b >>> j) := ihc hjpos (by omega)
              have hsib : tval t ((b >>> j) ^^^ 1) = tval t2 ((b >>> j) ^^^ 1) := by
                refine hagree _ ?_
                rintro ⟨h1, j', hj', he⟩
                exact sib_not_anc rfl hc2 j' hj' he.symm
              rw [hcohT (j + 1) (by omega) hq1, hcohT2 (j + 1) (by omega) hq1]
              exact fval_eq_of_children_eq (by omega) (Nat.shiftRight_add b j 1).symm
                hcih hsib
        refine tval_ext ?_ ?_
        · rw [Array.size_setD]
          exact hsz2.symm
        · intro i
          by_cases hia : 1 ≤ i ∧ ∃ j, 1 ≤ j ∧ i = (b >>> 1) >>> j
          · obtain ⟨hi1, j, hj, he⟩ := hia
            have hsh : (b >>> 1) >>> j = b >>> (1 + j) := by
              rw [← Nat.shiftRight_add]
            have hine : i ≠ b >>> 1 := by
              rw [he, hsh]
              exact anc_ne (by omega) (by rw [← hsh, ← he]; exact hi1)
            rw [ht'o i hine, he, hsh]
            exact hclimb (1 + j) (by omega) (by rw [← hsh, ← he]; exact hi1)
          · exact hagree' i hia
      · rename_i hbreak
        refine ih (b >>> 1) hplt (t.setD (b >>> 1) (fstep t b)) ?_ hp1 ?_ hagree' ?_ ?_
        · rw [Array.size_setD]
          exact hsz2
        · rw [Array.size_setD]
          omega
        · intro j hj hq1
          have hsh : (b >>> 1) >>> j = b >>> (1 + j) := by
            rw [← Nat.shiftRight_add]
          rw [hsh] at hq1 ⊢
          have hdbl := anc_double b j
          have hdblq : 2 * (b >>> (j + 1)) ≤ b >>> j := (anc_double b j).1
          have hq1' : 1 ≤ b >>> (j + 1) := by
            have : 1 + j = j + 1 := by omega
            rw [this] at hq1
            exact hq1
          have hc2 : 2 ≤ b >>> j := by omega
          have hcne : b >>> j ≠ b >>> 1 := anc_ne (by omega) (by omega)
          have hsne : (b >>> j) ^^^ 1 ≠ b >>> 1 :=
            fun hcon => (sib_not_anc (c := b >>> j) rfl hc2 1 le_rfl) hcon.symm
          have hqne : b >>> (1 + j) ≠ b >>> 1 := anc_ne (by omega) hq1
          rw [ht'o _ hqne]
          have hco := hcohT (1 + j) (by omega) hq1
          rw [hco]
          refine (@fval_eq_of_children_eq (t.setD (b >>> 1) (fstep t b)) t _ _
            (by omega) ?_ (ht'o _ hcne) (ht'o _ hsne)).symm
          rw [← Nat.shiftRight_add]
          congr 1
          omega
        · intro j hj hq1
          have hsh : (b >>> 1) >>> j = b >>> (1 + j) := by
            rw [← Nat.shiftRight_add]
          rw [hsh] at hq1 ⊢
          exact hcohT2 (1 + j) (by omega) hq1
    · have hbe : b = 1 := by omega
      subst hbe
      rw [update_parents_of_le le_rfl]
      refine tval_ext hsz2.symm ?_
      intro i
      refine hagree i ?_
      rintro ⟨h1, j, hj, rfl⟩
      have h2 : (1 : Nat) >>> j ≤ 1 / 2 := shiftRight_le_half hj
      omega

theorem descend_step (t : Array Int) (tgt : Int) (l blk : Nat) :
    descend t tgt (l + 1) blk =
      descend t tgt l (if tgt ≤ tval t (2 * blk) then 2 * blk else 2 * blk + 1) := by
  simp only [descend, shiftLeft_one]
  by_cases hs : tgt ≤ tval t (2 * blk)
  · simp only [hs, if_true, Nat.xor_zero]
  · simp only [hs, if_false]
    rw [xor_one_of_even (by omega)]

theorem fval_congr2 {ta tb : Array Int} {q : Nat}
    (h1 : tval ta (2 * q) = tval tb (2 * q))
    (h2 : tval ta (2 * q + 1) = tval tb (2 * q + 1)) : fval ta q = fval tb q := by
  rw [fval, fval, h1, h2]

/-- Characterization of `n = K >>> e` by the covering interval. -/
theorem shiftRight_eq_iff {K e n : Nat} :
    K >>> e = n ↔ n * 2 ^ e ≤ K ∧ K < n * 2 ^ e + 2 ^ e := by
  have hpos : 0 < (2 : Nat) ^ e := Nat.pos_pow_of_pos _ (by norm_num)
  rw [Nat.shiftRight_eq_div_pow]
  constructor
  · rintro rfl
    have h1 : K / 2 ^ e * 2 ^ e ≤ K := Nat.div_mul_le_self _ _
    have h2 := Nat.mod_add_div K (2 ^ e)
    have h3 := Nat.mod_lt K hpos
    constructor
    · omega
    · have h4 : K / 2 ^ e * 2 ^ e = 2 ^ e * (K / 2 ^ e) := by ring
      omega
  · rintro ⟨h1, h2⟩
    have h3 : n ≤ K / 2 ^ e := (Nat.le_div_iff_mul_le hpos).mpr h1
    have h4 : K / 2 ^ e < n + 1 := (Nat.div_lt_iff_lt_mul hpos).mpr (by
      have : (n + 1) * 2 ^ e = n * 2 ^ e + 2 ^ e := by ring
      omega)
    omega

/-- Level, used-leaf count and range of the ancestor `(2^L + k) >>> j` of the
leaf reached by the `k`-th minimum-order allocation. -/
theorem anc_spec {L k : Nat} (j : Nat) (hk : k < 2 ^ L) (hj : j ≤ L) :
    ilog2 ((2 ^ L + k) >>> j) = L - j ∧
    usedUnder L k ((2 ^ L + k) >>> j) = (2 ^ L + k) % 2 ^ j ∧
    2 ^ (L - j) ≤ (2 ^ L + k) >>> j ∧ (2 ^ L + k) >>> j < 2 ^ (L - j + 1) := by
  have hdiv : (2 ^ L + k) >>> j = (2 ^ L + k) / 2 ^ j := Nat.shiftRight_eq_div_pow _ _
  have hApos : 0 < (2 : Nat) ^ j := Nat.pos_pow_of_pos _ (by norm_num)
  have hE1 : (2 : Nat) ^ (L - j) * 2 ^ j = 2 ^ L := by
    rw [← pow_add]
    congr 1
    omega
  have hE2 : (2 : Nat) ^ (L - j + 1) * 2 ^ j = 2 ^ (L + 1) := by
    rw [← pow_add]
    congr 1
    omega
  have hK2 : 2 ^ L + k < 2 ^ (L + 1) := by
    rw [pow_succ]
    omega
  have hlo : 2 ^ (L - j) ≤ (2 ^ L + k) >>> j := by
    rw [hdiv, Nat.le_div_iff_mul_le hApos, hE1]
    omega
  have hhi : (2 ^ L + k) >>> j < 2 ^ (L - j + 1) := by
    rw [hdiv, Nat.div_lt_iff_lt_mul hApos]
    omega
  have hlog : ilog2 ((2 ^ L + k) >>> j) = L - j := ilog2_eq_of hlo hhi
  refine ⟨hlog, ?_, hlo, hhi⟩
  rw [usedUnder, hlog]
  have hLL : L - (L - j) = j := by omega
  rw [hLL]
  have hmod := Nat.mod_add_div (2 ^ L + k) (2 ^ j)
  have hmlt := Nat.mod_lt (2 ^ L + k) hApos
  have hsm : ((2 ^ L + k) >>> j - 2 ^ (L - j)) * 2 ^ j =
      ((2 ^ L + k) >>> j) * 2 ^ j - 2 ^ (L - j) * 2 ^ j := Nat.sub_mul _ _ _
  have hcm : ((2 ^ L + k) >>> j) * 2 ^ j = 2 ^ j * ((2 ^ L + k) / 2 ^ j) := by
    rw [hdiv]
    ring
  have hmono : 2 ^ (L - j) * 2 ^ j ≤ ((2 ^ L + k) >>> j) * 2 ^ j :=
    Nat.mul_le_mul_right _ hlo
  have hkm : (2 ^ L + k) % 2 ^ j = k % 2 ^ j := by
    have he : 2 ^ L + k = k + 2 ^ (L - j) * 2 ^ j := by omega
    rw [he, Nat.add_mul_mod_self_right]
  have hkle : k % 2 ^ j ≤ k := Nat.mod_le _ _
  rw [hsm, hcm, hE1]
  omega

/-- Nodes that are not the allocated leaf `2^L + k` nor one of its strict
ancestors keep the same used-leaf count when leaf `k` becomes used. -/
theorem usedUnder_frame {L k i : Nat} (hk : k < 2 ^ L) (hi1 : 1 ≤ i)
    (hi2 : i < 2 ^ (L + 1)) (hne : i ≠ 2 ^ L + k)
    (hanc : ¬ ∃ j, 1 ≤ j ∧ i = (2 ^ L + k) >>> j) :
    usedUnder L k i = usedUnder L (k + 1) i := by
  have hd : ilog2 i ≤ L := ilog2_le_of_lt_pow hi2
  have hP : 2 ^ ilog2 i ≤ i := pow_ilog2_le i hi1
  have hE1 : (2 : Nat) ^ ilog2 i * 2 ^ (L - ilog2 i) = 2 ^ L := by
    rw [← pow_add]
    congr 1
    omega
  have hnotanc : (2 ^ L + k) >>> (L - ilog2 i) ≠ i := by
    intro hc
    rcases Nat.eq_zero_or_pos (L - ilog2 i) with h0 | hp
    · rw [h0, Nat.shiftRight_zero] at hc
      exact hne hc.symm
    · exact hanc ⟨L - ilog2 i, hp, hc.symm⟩
  have hchar := shiftRight_eq_iff (K := 2 ^ L + k) (e := L - ilog2 i) (n := i)
  have hbnd : ¬ (i * 2 ^ (L - ilog2 i) ≤ 2 ^ L + k ∧
      2 ^ L + k < i * 2 ^ (L - ilog2 i) + 2 ^ (L - ilog2 i)) := by
    intro hc
    exact hnotanc (hchar.mpr hc)
  have hsm : (i - 2 ^ ilog2 i) * 2 ^ (L - ilog2 i) =
      i * 2 ^ (L - ilog2 i) - 2 ^ ilog2 i * 2 ^ (L - ilog2 i) := Nat.sub_mul _ _ _
  have hmono : 2 ^ ilog2 i * 2 ^ (L - ilog2 i) ≤ i * 2 ^ (L - ilog2 i) :=
    Nat.mul_le_mul_right _ hP
  rw [usedUnder, usedUnder, hsm, hE1]
  omega

/-- In the tree with the leftmost `k` leaves used, the descent for a
minimum-order request follows the ancestors of leaf `2^L + k`. -/
theorem descend_Tk {m L k : Nat} (hL : L < 128) (hk : k < 2 ^ L) :
    ∀ r, r ≤ L →
      descend (TkArr m L k) (m : Int) r ((2 ^ L + k) >>> r) = 2 ^ L + k := by
  intro r
  induction r with
  | zero =>
    intro _
    rw [Nat.shiftRight_zero]
    rfl
  | succ r ihr =>
    intro hr
    obtain ⟨hlog1, hu1, hlo1, hhi1⟩ := anc_spec (L := L) (k := k) (r + 1) hk hr
    obtain ⟨hlog0, hu0, hlo0, hhi0⟩ := anc_spec (L := L) (k := k) r hk (by omega)
    have hdbl := anc_double (2 ^ L + k) r
    have hmono : (2 : Nat) ^ (L - r + 1) ≤ 2 ^ (L + 1) :=
      Nat.pow_le_pow_right (by norm_num) (by omega)
    have hn1 : 1 ≤ (2 ^ L + k) >>> (r + 1) := by
      have := Nat.one_le_two_pow (n := L - (r + 1))
      omega
    have hcases : (2 ^ L + k) >>> r = 2 * ((2 ^ L + k) >>> (r + 1)) ∨
        (2 ^ L + k) >>> r = 2 * ((2 ^ L + k) >>> (r + 1)) + 1 := by omega
    rw [descend_step]
    rcases hcases with hbit | hbit
    · rw [← hbit]
      have hval : tval (TkArr m L k) ((2 ^ L + k) >>> r) =
          g m r ((2 ^ L + k) % 2 ^ r) := by
        rw [tval_Tk]
        rw [if_pos (by omega : (2 ^ L + k) >>> r < 2 ^ (L + 1))]
        rw [if_neg (by omega : ¬ (2 ^ L + k) >>> r = 0)]
        rw [hlog0, hu0]
        have he : L - (L - r) = r := by omega
        rw [he]
      have hsuit : ((m : Nat) : Int) ≤ g m r ((2 ^ L + k) % 2 ^ r) :=
        g_nonfull_ge m r _ (Nat.mod_lt _ (Nat.pos_pow_of_pos _ (by norm_num)))
      rw [hval, if_pos hsuit]
      exact ihr (by omega)
    · have hdlt : ilog2 ((2 ^ L + k) >>> (r + 1)) < L := by omega
      have h2nlt : 2 * ((2 ^ L + k) >>> (r + 1)) < 2 ^ (L + 1) := by omega
      have h2nne : ¬ 2 * ((2 ^ L + k) >>> (r + 1)) = 0 := by omega
      have hps : (2 : Nat) ^ (r + 1) = 2 ^ r * 2 := pow_succ 2 r
      have hdiv : (2 ^ L + k) / 2 ^ r = (2 ^ L + k) >>> r :=
        (Nat.shiftRight_eq_div_pow _ _).symm
      have hodd : ((2 ^ L + k) >>> r) % 2 = 1 := by omega
      have hKmod : (2 ^ L + k) % 2 ^ (r + 1) = (2 ^ L + k) % 2 ^ r + 2 ^ r := by
        rw [hps, Nat.mod_mul, hdiv, hodd, mul_one]
      have hKm1 : (2 ^ L + k) % 2 ^ r < 2 ^ r :=
        Nat.mod_lt _ (Nat.pos_pow_of_pos _ (by norm_num))
      have hu2n : usedUnder L k (2 * ((2 ^ L + k) >>> (r + 1))) = 2 ^ r := by
        rw [(usedUnder_children k hn1 hdlt).1, hlog1, hu1]
        have he : L - (L - (r + 1)) - 1 = r := by omega
        rw [he]
        omega
      have hee : L - ilog2 (2 * ((2 ^ L + k) >>> (r + 1))) = r := by
        rw [ilog2_double hn1, hlog1]
        omega
      have hval : tval (TkArr m L k) (2 * ((2 ^ L + k) >>> (r + 1))) =
          USED + ((r : Nat) : Int) := by
        rw [tval_Tk, if_pos h2nlt, if_neg h2nne, hee, hu2n, g_full]
      have hnot : ¬ ((m : Nat) : Int) ≤ USED + ((r : Nat) : Int) := by
        rw [USED_eq]
        omega
      rw [hval, if_neg hnot, ← hbit]
      exact ihr (by omega)

/-- One minimum-order allocation on the tree with the leftmost `k` leaves used
returns leaf `2^L + k` and yields the tree with the leftmost `k + 1` leaves used. -/
theorem alloc_Tk {m L k : Nat} (hL : L < 128) (hk : k < 2 ^ L) :
    Buddy.alloc ⟨m, TkArr m L k⟩ 1 =
      (some (2 ^ L + k), ⟨m, TkArr m L (k + 1)⟩) := by
  have hps : (2 : Nat) ^ (L + 1) = 2 ^ L * 2 := pow_succ 2 L
  have h1L : (1 : Nat) ≤ 2 ^ L := Nat.one_le_two_pow
  have hKlt : 2 ^ L + k < 2 ^ (L + 1) := by omega
  have hKsz : 2 ^ L + k < (TkArr m L k).size := by
    rw [size_Tk]
    omega
  have hilogK : ilog2 (2 ^ L + k) = L := ilog2_eq_of (by omega) (by omega)
  have hnp : next_power_of_two 1 = 1 := rfl
  have htgt : target_order ⟨m, TkArr m L k⟩ 1 = m := by
    rw [target_order, hnp, ilog2_one]
    simp
  have hu1v : usedUnder L k 1 = k := by
    rw [usedUnder, ilog2_one, pow_zero]
    norm_num
    omega
  have hval1 : tval (TkArr m L k) 1 = g m L k := by
    rw [tval_Tk, if_pos (by omega), if_neg one_ne_zero, ilog2_one, Nat.sub_zero, hu1v]
  have hge : ((m : Nat) : Int) ≤ g m L k := g_nonfull_ge m L k hk
  have hroot : ¬ tval (Buddy.alloc_tree ⟨m, TkArr m L k⟩) 1 <
      ((target_order ⟨m, TkArr m L k⟩ 1 : Nat) : Int) := by
    rw [htgt]
    show ¬ tval (TkArr m L k) 1 < ((m : Nat) : Int)
    rw [hval1]
    exact not_lt.mpr hge
  have hsz8 : (Buddy.alloc_tree ⟨m, TkArr m L k⟩).size = 2 ^ (L + m - m + 1) := by
    show (TkArr m L k).size = _
    rw [size_Tk]
    congr 1
    omega
  have hmaxo := (@max_order_of_size ⟨m, TkArr m L k⟩ m (L + m)
    rfl hsz8 (by omega)).2
  have hlev : L + m - m = L := by omega
  have hsh1 : (2 ^ L + k) >>> L = 1 := by
    refine shiftRight_eq_iff.mpr ?_
    constructor
    · omega
    · omega
  have hdesc : descend (TkArr m L k) ((m : Nat) : Int) L 1 = 2 ^ L + k := by
    have h := descend_Tk (m := m) hL hk L (le_refl L)
    rwa [hsh1] at h
  have huK : usedUnder L (k + 1) (2 ^ L + k) = 1 := by
    rw [usedUnder, hilogK, Nat.sub_self, pow_zero]
    omega
  have hvK : tval (TkArr m L (k + 1)) (2 ^ L + k) = USED := by
    rw [tval_Tk, if_pos hKlt, if_neg (by omega), hilogK, Nat.sub_self, huK]
    rfl
  have hup : update_parents ((TkArr m L k).setD (2 ^ L + k) USED) (2 ^ L + k) =
      TkArr m L (k + 1) := by
    refine up_exact (TkArr m L (k + 1)) (2 ^ L + k) ((TkArr m L k).setD (2 ^ L + k) USED)
      ?_ (by omega) ?_ ?_ ?_ ?_
    · rw [size_Tk, Array.size_setD, size_Tk]
    · rw [Array.size_setD, size_Tk]
      omega
    · intro i hni
      rw [tval_setD _ _ _ hKsz]
      by_cases hiK : i = 2 ^ L + k
      · rw [if_pos hiK, hiK]
        exact hvK.symm
      · rw [if_neg hiK]
        by_cases hrange : i < 2 ^ (L + 1)
        · by_cases hi0 : i = 0
          · subst hi0
            rw [tval_Tk, tval_Tk]
            simp [hrange]
          · have hi1 : (1 : Nat) ≤ i := by omega
            have hanc : ¬ ∃ j, 1 ≤ j ∧ i = (2 ^ L + k) >>> j := fun hc => hni ⟨hi1, hc⟩
            rw [tval_Tk, tval_Tk, if_pos hrange, if_pos hrange, if_neg hi0, if_neg hi0,
                usedUnder_frame hk hi1 hrange hiK hanc]
        · rw [tval_Tk, tval_Tk, if_neg hrange, if_neg hrange]
    · intro j hj hq1
      have hqd : (2 ^ L + k) >>> j = (2 ^ L + k) / 2 ^ j := Nat.shiftRight_eq_div_pow _ _
      have h4j : (4 : Nat) ≤ 2 ^ j := by
        calc (4 : Nat) = 2 ^ 2 := by norm_num
        _ ≤ 2 ^ j := Nat.pow_le_pow_right (by norm_num) hj
      have hq4 : (2 ^ L + k) >>> j ≤ (2 ^ L + k) / 4 := by
        rw [hqd]
        exact Nat.div_le_div_left h4j (by norm_num)
      have hK4 : 4 ≤ 2 ^ L + k := by
        have h : ¬ 2 ^ L + k < 2 ^ j := by
          intro hlt
          rw [hqd, Nat.div_eq_of_lt hlt] at hq1
          omega
        omega
      have hqb : 2 * ((2 ^ L + k) >>> j) + 1 < 2 ^ (L + 1) := by omega
      have hqK : (2 ^ L + k) >>> j ≠ 2 ^ L + k := by
        have h := @anc_ne (2 ^ L + k) 0 j (by omega) hq1
        rwa [Nat.shiftRight_zero] at h
      have hc1 : 2 * ((2 ^ L + k) >>> j) ≠ 2 ^ L + k := by omega
      have hc2 : 2 * ((2 ^ L + k) >>> j) + 1 ≠ 2 ^ L + k := by omega
      have e0 : tval ((TkArr m L k).setD (2 ^ L + k) USED) ((2 ^ L + k) >>> j) =
          tval (TkArr m L k) ((2 ^ L + k) >>> j) := by
        rw [tval_setD _ _ _ hKsz, if_neg hqK]
      have e1 : tval ((TkArr m L k).setD (2 ^ L + k) USED) (2 * ((2 ^ L + k) >>> j)) =
          tval (TkArr m L k) (2 * ((2 ^ L + k) >>> j)) := by
        rw [tval_setD _ _ _ hKsz, if_neg hc1]
      have e2 : tval ((TkArr m L k).setD (2 ^ L + k) USED) (2 * ((2 ^ L + k) >>> j) + 1) =
          tval (TkArr m L k) (2 * ((2 ^ L + k) >>> j) + 1) := by
        rw [tval_setD _ _ _ hKsz, if_neg hc2]
      rw [e0, Tk_coh hL (le_of_lt hk) _ hq1 hqb]
      exact fval_congr2 e1.symm e2.symm
    · intro j hj hq1
      have hqd : (2 ^ L + k) >>> j = (2 ^ L + k) / 2 ^ j := Nat.shiftRight_eq_div_pow _ _
      have h2j : (2 : Nat) ≤ 2 ^ j := by
        calc (2 : Nat) = 2 ^ 1 := by norm_num
        _ ≤ 2 ^ j := Nat.pow_le_pow_right (by norm_num) hj
      have hq2 : (2 ^ L + k) >>> j ≤ (2 ^ L + k) / 2 := by
        rw [hqd]
        exact Nat.div_le_div_left h2j (by norm_num)
      have hqb : 2 * ((2 ^ L + k) >>> j) + 1 < 2 ^ (L + 1) := by omega
      exact Tk_coh hL (by omega) _ hq1 hqb
  rw [alloc_succ hroot]
  have hat : Buddy.alloc_tree ⟨m, TkArr m L k⟩ = TkArr m L k := rfl
  rw [htgt, hat, hmaxo, hlev, hdesc, hup]

/-- A freshly constructed allocator is exactly the zero-allocation `TkArr` state. -/
theorem fresh_eq_Tk {C m : Nat} {b0 : Buddy} (h : Buddy.new C m = some b0) :
    b0 = ⟨m, TkArr m (ilog2 (next_power_of_two C) - m) 0⟩ := by
  obtain ⟨hm, hml, hsz, hv⟩ := new_spec h
  have hsz2 : b0.alloc_tree.size = (TkArr m (ilog2 (next_power_of_two C) - m) 0).size := by
    rw [size_Tk, hsz]
  have hveq : ∀ i, tval b0.alloc_tree i =
      tval (TkArr m (ilog2 (next_power_of_two C) - m) 0) i := by
    intro i
    rw [hv i, tval_Tk]
    by_cases hir : i < 2 ^ (ilog2 (next_power_of_two C) - m + 1)
    · rw [if_pos hir, if_pos hir]
      by_cases hi0 : i = 0
      · rw [if_pos hi0, if_pos hi0]
      · rw [if_neg hi0, if_neg hi0]
        have hu0 : usedUnder (ilog2 (next_power_of_two C) - m) 0 i = 0 := by
          rw [usedUnder, Nat.zero_sub]
          exact Nat.min_zero _
        rw [hu0, g_zero]
        have hle : ilog2 i ≤ ilog2 (next_power_of_two C) - m := ilog2_le_of_lt_pow hir
        omega
    · rw [if_neg hir, if_neg hir]
  cases b0 with
  | mk mo t =>
    have hm' : mo = m := hm
    subst mo
    have ht : t = TkArr m (ilog2 (next_power_of_two C) - m) 0 := tval_ext hsz2 hveq
    rw [ht]

/-- `k` successive minimum-order allocations (`alloc 1`), keeping only the state. -/
def allocs1 (b : Buddy) : Nat → Buddy
  | 0 => b
  | k + 1 => ((allocs1 b k).alloc 1).2

theorem allocs1_Tk {m L : Nat} (hL : L < 128) :
    ∀ k, k ≤ 2 ^ L → allocs1 ⟨m, TkArr m L 0⟩ k = ⟨m, TkArr m L k⟩ := by
  intro k
  induction k with
  | zero =>
    intro _
    rfl
  | succ k ih =>
    intro hk
    show ((allocs1 ⟨m, TkArr m L 0⟩ k).alloc 1).2 = _
    rw [ih (by omega), alloc_Tk hL (by omega)]

/-! ### C6 -/

/-- C6: starting from a freshly constructed allocator of capacity `C` (the
allocator's capacity, i.e. `C` rounded up to a power of two by the
constructor) and min_order `m`, exactly `capacity >> m` successive
minimum-order allocations (`alloc 1`) succeed, and the next one returns an
empty result.  The hypothesis `C ≤ 2^63` reflects that `C` is a `usize`
(the constructor computes `2 * capacity` without overflow). -/
theorem C6_exhaustion {C m : Nat} {b0 : Buddy} (hC : C ≤ 2 ^ 63)
    (h0 : Buddy.new C m = some b0) :
    (∀ k, k < b0.capacity >>> b0.min_order →
      ((allocs1 b0 k).alloc 1).1.isSome = true) ∧
    ((allocs1 b0 (b0.capacity >>> b0.min_order)).alloc 1).1 = none := by
  obtain ⟨hm, hml, hsz, hv⟩ := new_spec h0
  have hnpb : next_power_of_two C ≤ 2 ^ 63 := by
    rw [next_power_of_two]
    split
    · exact Nat.one_le_two_pow
    · have h1 : C - 1 < 2 ^ (62 + 1) := by
        have h2 : (2 : Nat) ^ (62 + 1) = 2 ^ 63 := rfl
        omega
      have h2 : ilog2 (C - 1) ≤ 62 := ilog2_le_of_lt_pow h1
      exact Nat.pow_le_pow_right (by norm_num) (by omega)
  have hmx : ilog2 (next_power_of_two C) ≤ 63 := by
    by_contra hcon
    have h1 : (2 : Nat) ^ 64 ≤ 2 ^ ilog2 (next_power_of_two C) :=
      Nat.pow_le_pow_right (by norm_num) (by omega)
    have h3 := npot_pow C
    omega
  have hL : ilog2 (next_power_of_two C) - m < 128 := by omega
  have hcap1 := max_order_of_size hm hsz hml
  have hcap : b0.capacity >>> b0.min_order = 2 ^ (ilog2 (next_power_of_two C) - m) := by
    rw [hcap1.1, hm, Nat.shiftRight_eq_div_pow, Nat.pow_div hml (by norm_num)]
  have hfr := fresh_eq_Tk h0
  have htgt : target_order ⟨m, TkArr m (ilog2 (next_power_of_two C) - m)
      (2 ^ (ilog2 (next_power_of_two C) - m))⟩ 1 = m := by
    have hnp1 : next_power_of_two 1 = 1 := rfl
    rw [target_order, hnp1, ilog2_one]
    simp
  constructor
  · intro k hk
    rw [hcap] at hk
    rw [hfr, allocs1_Tk hL k (le_of_lt hk), alloc_Tk hL hk]
    rfl
  · rw [hcap, hfr, allocs1_Tk hL _ (le_refl _)]
    have huf : usedUnder (ilog2 (next_power_of_two C) - m)
        (2 ^ (ilog2 (next_power_of_two C) - m)) 1 =
        2 ^ (ilog2 (next_power_of_two C) - m) := by
      rw [usedUnder, ilog2_one, Nat.sub_zero, pow_zero]
      omega
    have h1lt : (1 : Nat) < 2 ^ (ilog2 (next_power_of_two C) - m + 1) := by
      have h4 : (2 : Nat) ^ 1 ≤ 2 ^ (ilog2 (next_power_of_two C) - m + 1) :=
        Nat.pow_le_pow_right (by norm_num) (by omega)
      omega
    have hv1 : tval (TkArr m (ilog2 (next_power_of_two C) - m)
        (2 ^ (ilog2 (next_power_of_two C) - m))) 1 =
        USED + ((ilog2 (next_power_of_two C) - m : Nat) : Int) := by
      rw [tval_Tk, if_pos h1lt, if_neg one_ne_zero, ilog2_one, Nat.sub_zero, huf, g_full]
    have hfail : tval (Buddy.alloc_tree ⟨m, TkArr m (ilog2 (next_power_of_two C) - m)
        (2 ^ (ilog2 (next_power_of_two C) - m))⟩) 1 <
        ((target_order ⟨m, TkArr m (ilog2 (next_power_of_two C) - m)
          (2 ^ (ilog2 (next_power_of_two C) - m))⟩ 1 : Nat) : Int) := by
      rw [htgt]
      show tval (TkArr m (ilog2 (next_power_of_two C) - m)
        (2 ^ (ilog2 (next_power_of_two C) - m))) 1 < ((m : Nat) : Int)
      rw [hv1, USED_eq]
      omega
    rw [alloc_fail hfail]

/-- C6 witness at capacity 8, min_order 0: the fourth of the eight
minimum-order allocations succeeds, and the ninth returns an empty result. -/
theorem C6_witness :
    ((allocs1 fresh8 3).alloc 1).1.isSome = true ∧
    ((allocs1 fresh8 (fresh8.capacity >>> fresh8.min_order)).alloc 1).1 = none := by
  have h := @C6_exhaustion 8 0 fresh8 (by norm_num) (by decide)
  exact ⟨h.1 3 (by decide), h.2⟩
